import Mathlib

/-!
Verification development for the query-and-aggregation core of the confluo
(dialog) stream-analytics engine: the versioned aggregate store, the
predicate-expression lexer/parser with negation pushdown, and the schema
snapshot metadata accessors.

The lexer, parser, negation rewriter and schema snapshot are embedded from
`src/libdialog/dialog/expression.h`.  The aggregate store (`aggregate.h`),
the relational-operator table (`relational_ops.h`) and the column snapshot
(`column_snapshot.h`) are not part of the provided sources (only their tests
and callers are), so those definitions are modelled from the specification
and are marked as such in their doc comments.
-/

namespace Confluo

/- ===================== Versioned aggregate store ===================== -/

/-- Modelled from the spec: `aggregate.h` is not under `src/`.  Aggregate
kinds, spec section 3: enumerated SUM, MIN, MAX, COUNT (source spelling from
the tests: `aggregate_id::D_SUM` etc.). -/
inductive aggregate_id where
  | D_SUM
  | D_MIN
  | D_MAX
  | D_CNT
deriving DecidableEq

namespace limits

/-- Modelled from the spec: identity constants for the INT scalar type used
by the aggregate tests (`limits::int_zero`). -/
def int_zero : Int := 0

/-- Modelled from the spec: maximum-representable sentinel of the 32-bit INT
scalar type (`limits::int_max`). -/
def int_max : Int := 2 ^ 31 - 1

/-- Modelled from the spec: minimum-representable sentinel of the 32-bit INT
scalar type (`limits::int_min`). -/
def int_min : Int := -(2 ^ 31)

end limits

/-- Modelled from the spec: the aggregate kind's identity value — zero for
SUM/COUNT, the max sentinel for MIN, the min sentinel for MAX (spec
sections 3 and 4.2), for the INT scalar type. -/
def agg_identity : aggregate_id → Int
  | .D_SUM => limits.int_zero
  | .D_CNT => limits.int_zero
  | .D_MIN => limits.int_max
  | .D_MAX => limits.int_min

/-- Modelled from the spec: the combination rule of section 4.2 —
SUM is `last + value`, MIN is `min(last, value)`, MAX is `max(last, value)`,
COUNT is `last + 1` (the supplied value is ignored). -/
def combine (k : aggregate_id) (last v : Int) : Int :=
  match k with
  | .D_SUM => last + v
  | .D_MIN => min last v
  | .D_MAX => max last v
  | .D_CNT => last + 1

/-- Modelled from the spec: `aggregate_list` is an ordered append-only
sequence of `(offset, value)` entries together with the aggregate kind fixed
at construction (section 3).  Entries are kept newest first, so with the
strictly-increasing-offset write discipline the stored offsets are strictly
decreasing along the list. -/
structure aggregate_list where
  agg : aggregate_id
  entries : List (Nat × Int)
deriving DecidableEq

namespace aggregate_list

/-- Modelled from the spec: `construct(scalar_type, aggregate_kind)`
initializes the store to empty (section 4.2). -/
def empty (k : aggregate_id) : aggregate_list := ⟨k, []⟩

/-- Modelled from the spec: the last appended aggregate value, or the kind's
identity when the store is empty (`last_value_or_identity`, section 4.2). -/
def head_value (a : aggregate_list) : Int :=
  match a.entries with
  | [] => agg_identity a.agg
  | e :: _ => e.2

/-- Modelled from the spec: `update(value, offset)` computes
`new = combine(last_value_or_identity, value, kind)` and appends
`(offset, new)` (section 4.2). -/
def update (a : aggregate_list) (v : Int) (o : Nat) : aggregate_list :=
  ⟨a.agg, (o, combine a.agg a.head_value v) :: a.entries⟩

/-- Modelled from the spec: `get(query_offset)` returns the value of the
entry with the greatest stored offset that is at most `query_offset`; if no
such entry exists it returns the kind's identity value (section 4.2).  With
entries newest first and strictly decreasing offsets, the first entry whose
offset is at most the query offset is exactly the floor entry. -/
def get (a : aggregate_list) (q : Nat) : Int :=
  match a.entries.find? (fun e => e.1 ≤ q) with
  | some e => e.2
  | none => agg_identity a.agg

end aggregate_list

/-- Apply a sequence of updates (value, offset) in order, oldest first. -/
def apply_updates (a : aggregate_list) (us : List (Int × Nat)) : aggregate_list :=
  us.foldl (fun b u => b.update u.1 u.2) a

/-- Cumulative combination of a list of update values, starting from the
kind's identity value. -/
def cumulative (k : aggregate_id) (vs : List Int) : Int :=
  vs.foldl (combine k) (agg_identity k)

/- ===================== Expression lexer ===================== -/

/-- State of the `std::stringstream` used by `expression_lexer`: the
character buffer, the read position, and the stream's eofbit and failbit.
Reading past the end sets both eofbit and failbit; a peek at the end sets
only eofbit; `unget` first clears eofbit and then is a no-op when failbit is
set (C++ stream semantics, which the lexer relies on). -/
structure lex_state where
  input : List Char
  pos : Nat
  eofb : Bool
  failb : Bool
deriving DecidableEq

/-- `stream_.get()`: on a stream with eofbit or failbit set the sentry fails
(setting failbit) and EOF is returned; otherwise the character at `pos` is
consumed, or, at end of input, EOF is returned and eofbit and failbit are
set. -/
def sget (s : lex_state) : Option Char × lex_state :=
  if s.eofb || s.failb then (none, { s with failb := true })
  else
    match s.input.get? s.pos with
    | some c => (some c, { s with pos := s.pos + 1 })
    | none => (none, { s with eofb := true, failb := true })

/-- `stream_.peek()`: like `get` but does not consume; at end of input it
sets only eofbit. -/
def speek (s : lex_state) : Option Char × lex_state :=
  if s.eofb || s.failb then (none, { s with failb := true })
  else
    match s.input.get? s.pos with
    | some c => (some c, s)
    | none => (none, { s with eofb := true })

/-- `stream_.unget()`: first clears eofbit; if failbit is set the sentry
fails and nothing happens; otherwise the position steps back one character
(stepping back from position 0 fails). -/
def sunget (s : lex_state) : lex_state :=
  let t := { s with eofb := false }
  if t.failb then t
  else if t.pos = 0 then { t with failb := true }
  else { t with pos := t.pos - 1 }

/-- `iswspace` on ASCII input: space, tab, newline, vertical tab, form feed,
carriage return. -/
def iswsp (c : Char) : Bool :=
  c = ' ' || c = '\t' || c = '\n' || c = '\x0b' || c = '\x0c' || c = '\r'

/-- `expression_lexer::opvalid`: operand characters are alphanumerics and
the punctuation characters period, underscore, hyphen. -/
def opvalid (c : Char) : Bool :=
  c.isAlphanum || c = '.' || c = '_' || c = '-'

/-- Length of the whitespace run at the current read position. -/
def wsrun (s : lex_state) : Nat :=
  ((s.input.drop s.pos).takeWhile iswsp).length

/-- The `while (iswspace(stream_.peek())) stream_.get();` loop: on a failed
or eof stream the peek's sentry sets failbit and the loop exits; otherwise
the whitespace run is consumed and, when the run extends to the end of the
input, the final peek sets eofbit. -/
def skip_ws (s : lex_state) : lex_state :=
  if s.eofb || s.failb then { s with failb := true }
  else
    let p := s.pos + wsrun s
    if p < s.input.length then { s with pos := p }
    else { s with pos := p, eofb := true }

/-- The operand-reading loop `while (opvalid(stream_.peek())) operand +=
stream_.get();` run from a good stream positioned at the first operand
character: consumes the maximal run of operand characters, setting eofbit
when the run reaches the end of the input. -/
def read_operand (s : lex_state) : String × lex_state :=
  let run := (s.input.drop s.pos).takeWhile opvalid
  let p := s.pos + run.length
  if p < s.input.length then (String.mk run, { s with pos := p })
  else (String.mk run, { s with pos := p, eofb := true })

/-- Token generated by the lexer (`expression_lex_token`). -/
structure expression_lex_token where
  id : Int
  value : String
deriving DecidableEq

namespace expression_lexer

def INVALID : Int := -2
def END : Int := -1
def OR : Int := 0
def AND : Int := 1
def NOT : Int := 2
def LEFT : Int := 3
def RIGHT : Int := 4
def OPERATOR : Int := 5
def OPERAND : Int := 6

end expression_lexer

/-- Parse failures (`parse_exception`), raised by `THROW(parse_exception, msg)`. -/
inductive parse_exception where
  | ex (msg : String)
deriving DecidableEq

instance {ε α : Type} [DecidableEq ε] [DecidableEq α] : DecidableEq (Except ε α) :=
  fun x y =>
    match x, y with
    | .ok a, .ok b =>
      if h : a = b then isTrue (by rw [h]) else isFalse (by intro hh; cases hh; exact h rfl)
    | .error a, .error b =>
      if h : a = b then isTrue (by rw [h]) else isFalse (by intro hh; cases hh; exact h rfl)
    | .ok _, .error _ => isFalse (by intro hh; cases hh)
    | .error _, .ok _ => isFalse (by intro hh; cases hh)

/-- `iswspace(stream_.peek())` applied to a peek result: EOF is not
whitespace. -/
def wspeek (o : Option Char) : Bool :=
  match o with
  | some w => iswsp w
  | none => false

/-- Body of `expression_lexer::next_token` after whitespace skipping:
dispatch on the first character read, comparing each subsequent
`stream_.get()` result the way the C++ `if` cascades do. -/
def next_token_core (s0 : lex_state) : Except parse_exception (expression_lex_token × lex_state) :=
  match (sget s0).1 with
  | none => .ok (⟨expression_lexer.END, ""⟩, (sget s0).2)
  | some c =>
    let s := (sget s0).2
    if c = '|' then
      let g := sget s
      if g.1 = some '|' then .ok (⟨expression_lexer.OR, "||"⟩, g.2)
      else .error (.ex "Invalid token starting with |; did you mean ||?")
    else if c = '&' then
      let g := sget s
      if g.1 = some '&' then .ok (⟨expression_lexer.AND, "&&"⟩, g.2)
      else .error (.ex "Invalid token starting with &; did you mean &&?")
    else if c = '!' then
      let g := sget s
      if g.1 = some '=' then .ok (⟨expression_lexer.OPERATOR, "!="⟩, g.2)
      else if g.1 = some 'i' then
        let g2 := sget g.2
        if g2.1 = some 'n' then
          let g3 := speek g2.2
          if wspeek g3.1 then .ok (⟨expression_lexer.OPERATOR, "!in"⟩, g3.2)
          else .ok (⟨expression_lexer.NOT, "!"⟩, sunget (sunget g3.2))
        else .ok (⟨expression_lexer.NOT, "!"⟩, sunget (sunget g2.2))
      else .ok (⟨expression_lexer.NOT, "!"⟩, sunget g.2)
    else if c = '(' then .ok (⟨expression_lexer.LEFT, "("⟩, s)
    else if c = ')' then .ok (⟨expression_lexer.RIGHT, ")"⟩, s)
    else if c = '=' then
      let g := sget s
      if g.1 = some '=' then .ok (⟨expression_lexer.OPERATOR, "=="⟩, g.2)
      else .error (.ex "Invalid token starting with =; did you mean ==?")
    else if c = '<' then
      let g := sget s
      if g.1 = some '=' then .ok (⟨expression_lexer.OPERATOR, "<="⟩, g.2)
      else .ok (⟨expression_lexer.OPERATOR, "<"⟩, sunget g.2)
    else if c = '>' then
      let g := sget s
      if g.1 = some '=' then .ok (⟨expression_lexer.OPERATOR, ">="⟩, g.2)
      else .ok (⟨expression_lexer.OPERATOR, ">"⟩, sunget g.2)
    else if opvalid c then
      let r := read_operand (sunget s)
      .ok (⟨expression_lexer.OPERAND, r.1⟩, r.2)
    else .error (.ex "All operands must conform to [a-zA-Z0-9_.]+")

/-- `expression_lexer::next_token`: skip whitespace, then lex one token. -/
def next_token (s : lex_state) : Except parse_exception (expression_lex_token × lex_state) :=
  next_token_core (skip_ws s)

/-- Modelled after `put_back`: `stream_.unget()` once per character of the
token's value. -/
def ungetN : Nat → lex_state → lex_state
  | 0, s => s
  | n + 1, s => ungetN n (sunget s)

/-- `expression_lexer::put_back(tok)`: unget once per character of
`tok.value`. -/
def put_back (s : lex_state) (t : expression_lex_token) : lex_state :=
  ungetN t.value.length s

/-- `expression_lexer::peek_token`: read the next token, then put it back. -/
def peek_token (s : lex_state) : Except parse_exception (expression_lex_token × lex_state) :=
  match next_token s with
  | .ok (t, s1) => .ok (t, put_back s1 t)
  | .error e => .error e

/- ===================== Relational operators and AST ===================== -/

/-- Modelled from the spec: `relational_ops.h` is not under `src/`.  The
Relational Operator Table defines exactly the six comparison operators of
the predicate syntax (spec sections 2, 4.4 and 6); the reserved `!in` token
has no relational-operator variant. -/
inductive relop_id where
  | EQ
  | NEQ
  | LT
  | GT
  | LE
  | GE
deriving DecidableEq

/-- Modelled from the spec: `relop_utils::str_to_op` (in the missing
`relational_ops.h`) maps the textual form of each of the six comparison
operators to its `relop_id`; any other string — in particular the reserved
`!in` operator token, which must be rejected rather than silently accepted —
is a parse error. -/
def str_to_op (s : String) : Except parse_exception relop_id :=
  if s = "==" then .ok .EQ
  else if s = "!=" then .ok .NEQ
  else if s = "<" then .ok .LT
  else if s = ">" then .ok .GT
  else if s = "<=" then .ok .LE
  else if s = ">=" then .ok .GE
  else .error (.ex "Invalid operator")

/-- Expression AST (`expression_t` with its `predicate_t`, `conjunction_t`,
`disjunction_t` and `negation` variants). -/
inductive expression_t where
  | predicate (attr : String) (op : relop_id) (value : String)
  | conjunction (l r : expression_t)
  | disjunction (l r : expression_t)
  | negation (child : expression_t)
deriving DecidableEq

/-- Whether an expression tree contains a NOT node. -/
def has_not : expression_t → Bool
  | .predicate _ _ _ => false
  | .conjunction l r => has_not l || has_not r
  | .disjunction l r => has_not l || has_not r
  | .negation _ => true

/-- `expression_parser::negate(const relop_id&)`: EQ and NEQ, LT and GE,
GT and LE swap.  The six `relop_id` variants cover every case, so the
function is total; the C++ `default: THROW(parse_exception, "Could not
negate: invalid operator")` branch is unreachable for well-formed operator
values. -/
def negate_op : relop_id → relop_id
  | .EQ => .NEQ
  | .NEQ => .EQ
  | .LT => .GE
  | .GT => .LE
  | .LE => .GT
  | .GE => .LT

/-- `expression_parser::negate(expression_t*)`: De Morgan pushdown — AND
becomes OR of negated children, OR becomes AND of negated children, NOT is
dropped, and a predicate's operator is complemented. -/
def negate_exp : expression_t → expression_t
  | .conjunction l r => .disjunction (negate_exp l) (negate_exp r)
  | .disjunction l r => .conjunction (negate_exp l) (negate_exp r)
  | .negation c => c
  | .predicate a op v => .predicate a (negate_op op) v

/- ===================== Expression parser ===================== -/

mutual

/-- `expression_parser::factor`: NOT factor, parenthesized expr, or an
OPERAND OPERATOR OPERAND predicate.  The fuel argument bounds the recursion
depth; it only decreases strictly along calls, so running out of fuel yields
an error and never a wrong parse. -/
def pfactor : Nat → lex_state → Except parse_exception (expression_t × lex_state)
  | 0, _ => .error (.ex "out of fuel")
  | Nat.succ fuel, s =>
    match next_token s with
    | .error e => .error e
    | .ok (tok, s) =>
      if tok.id = expression_lexer.NOT then
        match pfactor fuel s with
        | .error e => .error e
        | .ok (e, s) => .ok (negate_exp e, s)
      else if tok.id = expression_lexer.LEFT then
        match pexp fuel s with
        | .error e => .error e
        | .ok (e, s) =>
          match next_token s with
          | .error e2 => .error e2
          | .ok (r, s) =>
            if r.id = expression_lexer.RIGHT then .ok (e, s)
            else .error (.ex "Could not find matching right parenthesis")
      else if tok.id = expression_lexer.OPERAND then
        match next_token s with
        | .error e => .error e
        | .ok (opt, s) =>
          if opt.id = expression_lexer.OPERATOR then
            match str_to_op opt.value with
            | .error e => .error e
            | .ok op =>
              match next_token s with
              | .error e => .error e
              | .ok (operand2, s) =>
                if operand2.id = expression_lexer.OPERAND then
                  .ok (.predicate tok.value op operand2.value, s)
                else .error (.ex "Operand must be followed by operator in all predicates")
          else .error (.ex "First operand must be followed by operator in all predicates")
      else .error (.ex ("Unexpected token " ++ tok.value))

/-- `expression_parser::term`: a factor, then optionally AND and a
right-recursive term. -/
def pterm : Nat → lex_state → Except parse_exception (expression_t × lex_state)
  | 0, _ => .error (.ex "out of fuel")
  | Nat.succ fuel, s =>
    match pfactor fuel s with
    | .error e => .error e
    | .ok (f, s) =>
      match peek_token s with
      | .error e => .error e
      | .ok (tk, s1) =>
        if tk.id = expression_lexer.AND then
          match next_token s1 with
          | .error e => .error e
          | .ok (_, s2) =>
            match pterm fuel s2 with
            | .error e => .error e
            | .ok (t, s3) => .ok (.conjunction f t, s3)
        else .ok (f, s1)

/-- `expression_parser::exp`: a term, then optionally OR and a
right-recursive expr. -/
def pexp : Nat → lex_state → Except parse_exception (expression_t × lex_state)
  | 0, _ => .error (.ex "out of fuel")
  | Nat.succ fuel, s =>
    match pterm fuel s with
    | .error e => .error e
    | .ok (t, s) =>
      match peek_token s with
      | .error e => .error e
      | .ok (tk, s1) =>
        if tk.id = expression_lexer.OR then
          match next_token s1 with
          | .error e => .error e
          | .ok (_, s2) =>
            match pexp fuel s2 with
            | .error e => .error e
            | .ok (e, s3) => .ok (.disjunction t e, s3)
        else .ok (t, s1)

end

/-- Fresh lexer state over an expression string. -/
def init_state (str : String) : lex_state := ⟨str.data, 0, false, false⟩

/-- `expression_parser::parse`: parse an expr and require the next token to
be END.  The fuel `3 * length + 3` dominates the recursion depth of the
grammar, in which at least one input character is consumed every three
nested calls. -/
def parse (str : String) : Except parse_exception expression_t :=
  match pexp (3 * str.length + 3) (init_state str) with
  | .error e => .error e
  | .ok (e, s) =>
    match next_token s with
    | .error e2 => .error e2
    | .ok (tok, _) =>
      if tok.id = expression_lexer.END then .ok e
      else .error (.ex "Parsing ended prematurely")

/-- An occurrence of the reserved token pattern: at position `p` the input
holds `!`, then `i`, then `n`, then a whitespace character (the exact
condition under which the lexer emits the OPERATOR token `!in`). -/
def bang_in_at (l : List Char) (p : Nat) : Prop :=
  l.get? p = some '!' ∧ l.get? (p + 1) = some 'i' ∧ l.get? (p + 2) = some 'n'
    ∧ ∃ c, l.get? (p + 3) = some c ∧ iswsp c = true

/-- Characterization of a successful `next_token_core` step from a good
state positioned at a non-whitespace character `c` at index `q`. -/
def nt_out (l : List Char) (q : Nat) (t : expression_lex_token) (s' : lex_state) : Prop :=
  s'.input = l
  ∧ t.id ≠ expression_lexer.END
  ∧ 1 ≤ t.value.length
  ∧ s'.pos = q + t.value.length
  ∧ s'.failb = false
  ∧ (s'.eofb = true → s'.pos = l.length)
  ∧ put_back s' t = ⟨l, q, false, false⟩
  ∧ ∀ p, bang_in_at l p → q ≤ p →
      ((t.id = expression_lexer.OPERATOR ∧ t.value = "!in") ∨ s'.pos ≤ p)

/- ===================== Schema snapshot ===================== -/

/-- Modelled from the spec: `column_snapshot.h` is not under `src/`.  A
column descriptor carries (among the fields of spec section 3) its byte
offset, whether it is indexed, and the numeric index id and index bucket
size; only the fields the snapshot accessors and key computation touch are
modelled. -/
structure column_snapshot where
  offset : Nat
  indexed : Bool
  index_id : Nat
  index_bucket_size : Nat
deriving DecidableEq

/-- Default column used to totalize the unchecked `snapshot_[i]` accesses;
the claims only concern in-range indices. -/
def dflt_col : column_snapshot := ⟨0, false, 0, 0⟩

/-- `schema_snapshot`: an ordered sequence of column snapshots. -/
structure schema_snapshot where
  snapshot : List column_snapshot
deriving DecidableEq

namespace schema_snapshot

def num_columns (s : schema_snapshot) : Nat := s.snapshot.length

def is_indexed (s : schema_snapshot) (i : Nat) : Bool :=
  (s.snapshot.getD i dflt_col).indexed

/-- `bool index_id(size_t i) const { return snapshot_[i].index_id; }` — the
declared return type is `bool`, so the column's numeric index id undergoes
the C++ integer-to-bool conversion: the caller learns only whether the id is
nonzero. -/
def index_id (s : schema_snapshot) (i : Nat) : Bool :=
  (s.snapshot.getD i dflt_col).index_id != 0

/-- `bool index_bucket_size(size_t i) const { return
snapshot_[i].index_bucket_size; }` — again declared `bool`, so the
configured bucket size is truncated to whether it is nonzero. -/
def index_bucket_size (s : schema_snapshot) (i : Nat) : Bool :=
  (s.snapshot.getD i dflt_col).index_bucket_size != 0

/-- Modelled from the spec: the key transform (`byte_string.h` and `data.h`
are not under `src/`) quantizes per section 4.3 — `quantized = value -
(value mod bucket_size)` when `bucket_size > 1`, no quantization for bucket
size 0 or 1. -/
def key_quantize (v : Int) (b : Nat) : Int :=
  if 1 < b then v - v % (b : Int) else v

/-- `get_key(ptr, i)` applies the column's key transform to the column's
extracted value, passing the column's configured `index_bucket_size`; the
record buffer is abstracted as the per-column extracted value. -/
def get_key (s : schema_snapshot) (record : Nat → Int) (i : Nat) : Int :=
  key_quantize (record i) (s.snapshot.getD i dflt_col).index_bucket_size

end schema_snapshot

/-- A column configured with index id 2 and index bucket size 2. -/
def colA : column_snapshot := ⟨0, true, 2, 2⟩

/-- A column configured with index id 3 and index bucket size 3. -/
def colB : column_snapshot := ⟨0, true, 3, 3⟩

def snapA : schema_snapshot := ⟨[colA]⟩

def snapB : schema_snapshot := ⟨[colB]⟩

/- ===================== Theorems ===================== -/

theorem apply_updates_nil (a : aggregate_list) : apply_updates a [] = a := rfl

theorem apply_updates_cons (a : aggregate_list) (u : Int × Nat) (us : List (Int × Nat)) :
    apply_updates a (u :: us) = apply_updates (a.update u.1 u.2) us := rfl

theorem update_agg (a : aggregate_list) (v : Int) (o : Nat) :
    (a.update v o).agg = a.agg := rfl

theorem apply_updates_agg (us : List (Int × Nat)) (a : aggregate_list) :
    (apply_updates a us).agg = a.agg := by
  induction us generalizing a with
  | nil => rfl
  | cons u us ih => rw [apply_updates_cons, ih, update_agg]

/-- The offset predicate used for floor queries. -/
def le_off (q : Nat) : Int × Nat → Bool := fun u => u.2 ≤ q

/-- Generalized floor-lookup lemma: running a batch of strictly-increasing
updates whose offsets all exceed the offsets already stored, `get q` either
falls through to the old store (when no new update is at or below `q`) or
returns the fold of the new prefix of updates at or below `q`. -/
theorem get_apply_updates (q : Nat) (us : List (Int × Nat)) :
    ∀ (a : aggregate_list),
      us.Pairwise (fun x y => x.2 < y.2) →
      (∀ u ∈ us, ∀ e ∈ a.entries, e.1 < u.2) →
      (apply_updates a us).get q =
        (if us.takeWhile (le_off q) = [] then a.get q
         else ((us.takeWhile (le_off q)).map Prod.fst).foldl (combine a.agg) a.head_value) := by
  induction us with
  | nil =>
    intro a _ _
    simp [apply_updates_nil, List.takeWhile]
  | cons u us ih =>
    intro a hp hfut
    rw [List.pairwise_cons] at hp
    obtain ⟨hu, hus⟩ := hp
    rw [apply_updates_cons]
    have hfut' : ∀ w ∈ us, ∀ e ∈ (a.update u.1 u.2).entries, e.1 < w.2 := by
      intro w hw e he
      simp only [aggregate_list.update, List.mem_cons] at he
      rcases he with he | he
      · subst he
        exact hu w hw
      · exact hfut w (List.mem_cons_of_mem _ hw) e he
    have ihx := ih (a.update u.1 u.2) hus hfut'
    by_cases hq : u.2 ≤ q
    · have htw : (u :: us).takeWhile (le_off q) = u :: us.takeWhile (le_off q) := by
        simp [List.takeWhile, le_off, hq]
      rw [ihx, htw]
      have hagg : (a.update u.1 u.2).agg = a.agg := rfl
      have hhv : (a.update u.1 u.2).head_value = combine a.agg a.head_value u.1 := rfl
      by_cases h0 : us.takeWhile (le_off q) = []
      · rw [if_pos h0]
        have : (a.update u.1 u.2).get q = combine a.agg a.head_value u.1 := by
          simp [aggregate_list.get, aggregate_list.update, List.find?, le_off,
                decide_eq_true hq]
        rw [this]
        simp [h0]
      · rw [if_neg h0, if_neg (by simp [h0])]
        rw [hagg, hhv]
        simp
    · have htw : (u :: us).takeWhile (le_off q) = [] := by
        simp [List.takeWhile, le_off, hq]
      rw [htw, if_pos rfl]
      have htw' : us.takeWhile (le_off q) = [] := by
        cases us with
        | nil => rfl
        | cons w ws =>
          have hw : u.2 < w.2 := hu w (List.mem_cons_self w ws)
          have : ¬ w.2 ≤ q := by omega
          simp [List.takeWhile, le_off, this]
      rw [ihx, htw', if_pos rfl]
      simp [aggregate_list.get, aggregate_list.update, List.find?, le_off,
            decide_eq_false hq]

/-- Floor lookup over a store built from scratch: `get q` is the cumulative
combination of exactly the updates with offset at most `q`. -/
theorem get_from_empty (k : aggregate_id) (q : Nat) (us : List (Int × Nat))
    (hmono : us.Pairwise (fun x y => x.2 < y.2)) :
    (apply_updates (aggregate_list.empty k) us).get q =
      cumulative k ((us.takeWhile (le_off q)).map Prod.fst) := by
  have h := get_apply_updates q us (aggregate_list.empty k) hmono
    (by intro u _ e he; simp [aggregate_list.empty] at he)
  by_cases h0 : us.takeWhile (le_off q) = []
  · rw [h, if_pos h0, h0]
    rfl
  · rw [h, if_neg h0]
    rfl

theorem takeWhile_eq_take_aux {α : Type} (pr : α → Bool) :
    ∀ (l : List α) (n : Nat),
      (∀ j (hj : j < l.length), j < n → pr (l.get ⟨j, hj⟩) = true) →
      (∀ hn : n < l.length, pr (l.get ⟨n, hn⟩) = false) →
      l.takeWhile pr = l.take n := by
  intro l
  induction l with
  | nil => intro n _ _; simp
  | cons x xs ih =>
    intro n h1 h2
    cases n with
    | zero =>
      have hx : pr x = false := h2 (by simp)
      simp [List.takeWhile, hx]
    | succ m =>
      have hx : pr x = true := h1 0 (by simp) (by omega)
      simp only [List.takeWhile, hx, List.take]
      rw [ih m (fun j hj hjm => h1 (j + 1) (by simpa using Nat.succ_lt_succ hj) (by omega))
            (fun hm => h2 (by simpa using Nat.succ_lt_succ hm))]

theorem takeWhile_eq_self_of_all {α : Type} (pr : α → Bool) :
    ∀ (l : List α), (∀ x ∈ l, pr x = true) → l.takeWhile pr = l := by
  intro l
  induction l with
  | nil => intro _; rfl
  | cons x xs ih =>
    intro h
    have hx : pr x = true := h x (List.mem_cons_self x xs)
    simp only [List.takeWhile, hx]
    rw [ih (fun y hy => h y (List.mem_cons_of_mem _ hy))]

/-- C1.  For any aggregate kind and any sequence of `n` updates at strictly
increasing offsets `o_1 < ... < o_n` applied to a fresh store, `get q`
returns the kind's identity value when `q < o_1`, and returns the cumulative
combination of updates `1..i` when `o_i ≤ q < o_{i+1}` (the premise about
`o_{i+1}` being vacuous for `i = n`, which covers `q ≥ o_n`): `get` is a
floor-lookup over the append log. -/
theorem c1_floor_semantics (k : aggregate_id) (us : List (Int × Nat))
    (hmono : us.Pairwise (fun x y => x.2 < y.2)) (q : Nat) :
    (∀ u₁, us.head? = some u₁ → q < u₁.2 →
        (apply_updates (aggregate_list.empty k) us).get q = agg_identity k)
    ∧ ∀ (i : Nat) (hi : i < us.length),
        (us.get ⟨i, hi⟩).2 ≤ q →
        (∀ hj : i + 1 < us.length, q < (us.get ⟨i + 1, hj⟩).2) →
        (apply_updates (aggregate_list.empty k) us).get q
          = cumulative k ((us.take (i + 1)).map Prod.fst) := by
  constructor
  · intro u₁ hh hq
    rw [get_from_empty k q us hmono]
    cases us with
    | nil => rfl
    | cons w ws =>
      have hw : w = u₁ := by simpa using hh
      subst hw
      have : ¬ w.2 ≤ q := by omega
      simp [List.takeWhile, le_off, this, cumulative]
  · intro i hi hle hnext
    rw [get_from_empty k q us hmono]
    have hget := List.pairwise_iff_get.mp hmono
    have htake : us.takeWhile (le_off q) = us.take (i + 1) := by
      apply takeWhile_eq_take_aux
      · intro j hj hji
        have : (us.get ⟨j, hj⟩).2 ≤ q := by
          rcases Nat.lt_or_ge j i with hlt | hge
          · have := hget ⟨j, hj⟩ ⟨i, hi⟩ hlt
            omega
          · have : j = i := by omega
            subst this
            exact hle
        simpa [le_off] using this
      · intro hn
        have := hnext hn
        simp only [le_off]
        exact decide_eq_false (by omega)
    rw [htake]

theorem c1_witness :
    (apply_updates (aggregate_list.empty .D_SUM) [(1, 2), (2, 4)]).get 1
        = agg_identity .D_SUM
    ∧ (apply_updates (aggregate_list.empty .D_SUM) [(1, 2), (2, 4)]).get 4 = 3 := by
  constructor
  · exact (c1_floor_semantics .D_SUM [(1, 2), (2, 4)] (by decide) 1).1 (1, 2) rfl (by decide)
  · exact ((c1_floor_semantics .D_SUM [(1, 2), (2, 4)] (by decide) 4).2 1 (by decide)
      (by decide) (fun hj => absurd hj (by decide))).trans (by decide)

theorem cnt_foldl (vs : List Int) : ∀ c : Int,
    vs.foldl (combine .D_CNT) c = c + vs.length := by
  induction vs with
  | nil => intro c; simp
  | cons v vs ih =>
    intro c
    simp only [List.foldl, combine, ih, List.length_cons]
    push_cast
    ring

theorem last_offset_ge (us : List (Int × Nat)) (u : Int × Nat) :
    us.Pairwise (fun x y => x.2 < y.2) → us.getLast? = some u →
    ∀ x ∈ us, x.2 ≤ u.2 := by
  induction us with
  | nil => intro _ h; simp at h
  | cons a t ih =>
    intro hp hl x hx
    rw [List.pairwise_cons] at hp
    cases t with
    | nil =>
      simp at hl
      subst hl
      simp at hx
      subst hx
      exact le_refl _
    | cons b t' =>
      have hl' : (b :: t').getLast? = some u := by
        simpa [List.getLast?] using hl
      rcases List.mem_cons.mp hx with hxa | hxt
      · subst hxa
        have hmem : u ∈ b :: t' := by
          obtain ⟨hne, hu⟩ := List.mem_getLast?_eq_getLast (Option.mem_def.mpr hl')
          subst hu
          exact List.getLast_mem hne
        exact le_of_lt (hp.1 u hmem)
      · exact ih hp.2 hl' x hxt

/-- C3.  For a COUNT store, update ignores the supplied value (each call
increments the count by exactly one), so after `n` updates at strictly
increasing offsets `get(o_n)` reports `n`, for any values passed. -/
theorem c3_count_increments :
    (∀ (a : aggregate_list) (v w : Int) (o : Nat),
        a.agg = aggregate_id.D_CNT → a.update v o = a.update w o)
    ∧ ∀ (us : List (Int × Nat)) (u : Int × Nat),
        us.Pairwise (fun x y => x.2 < y.2) → us.getLast? = some u →
        (apply_updates (aggregate_list.empty aggregate_id.D_CNT) us).get u.2
          = (us.length : Int) := by
  constructor
  · intro a v w o h
    simp [aggregate_list.update, combine, h]
  · intro us u hmono hlast
    rw [get_from_empty _ _ _ hmono]
    have hall : ∀ x ∈ us, le_off u.2 x = true := by
      intro x hx
      have := last_offset_ge us u hmono hlast x hx
      simpa [le_off] using this
    rw [takeWhile_eq_self_of_all _ _ hall]
    unfold cumulative
    rw [cnt_foldl]
    simp [agg_identity, limits.int_zero]

theorem c3_witness :
    (apply_updates (aggregate_list.empty aggregate_id.D_CNT)
        [(5, 1), (9, 3)]).get 3 = 2 :=
  (c3_count_increments.2 [(5, 1), (9, 3)] (9, 3) (by decide) (by decide)).trans (by decide)

/-- C4.  On a freshly constructed store, `get 0` before any update returns
the kind's identity value: the INT scalar type's zero for SUM and COUNT, the
maximum-representable sentinel for MIN, and the minimum-representable
sentinel for MAX. -/
theorem c4_empty_identity :
    (∀ k : aggregate_id, (aggregate_list.empty k).get 0 = agg_identity k)
    ∧ agg_identity .D_SUM = limits.int_zero
    ∧ agg_identity .D_CNT = limits.int_zero
    ∧ agg_identity .D_MIN = limits.int_max
    ∧ agg_identity .D_MAX = limits.int_min
    ∧ limits.int_zero = 0
    ∧ limits.int_max = 2 ^ 31 - 1
    ∧ limits.int_min = -(2 ^ 31) := by
  refine ⟨fun k => ?_, rfl, rfl, rfl, rfl, rfl, rfl, rfl⟩
  cases k <;> rfl

/- ===================== List and stream lemmas ===================== -/

/- helper lemmas for the lexer core -/

theorem get?_lt {l : List Char} {n : Nat} {c : Char} (h : l.get? n = some c) :
    n < l.length := by
  by_contra hn
  rw [List.get?_eq_none.mpr (by omega)] at h
  cases h

theorem takeWhile_len_le_of_fail {α : Type} (pr : α → Bool) :
    ∀ (l : List α) (i : Nat) (c : α), l.get? i = some c → pr c = false →
      (l.takeWhile pr).length ≤ i := by
  intro l
  induction l with
  | nil => intro i c h _; cases h
  | cons x xs ih =>
    intro i c h hc
    cases i with
    | zero =>
      simp only [List.get?] at h
      injection h with h
      subst h
      simp [List.takeWhile, hc]
    | succ j =>
      simp only [List.get?] at h
      by_cases hx : pr x
      · simp only [List.takeWhile, hx, List.length_cons]
        have := ih j c h hc
        omega
      · simp [List.takeWhile, hx]

theorem takeWhile_stop {α : Type} (pr : α → Bool) :
    ∀ (l : List α) (c : α), l.get? (l.takeWhile pr).length = some c → pr c = false := by
  intro l
  induction l with
  | nil => intro c h; cases h
  | cons x xs ih =>
    intro c h
    by_cases hx : pr x
    · simp only [List.takeWhile, hx, List.length_cons, List.get?] at h
      exact ih c h
    · simp only [List.takeWhile, hx, List.length_nil, List.get?] at h
      injection h with h
      subst h
      exact Bool.eq_false_iff.mpr hx

theorem takeWhile_sat {α : Type} (pr : α → Bool) :
    ∀ (l : List α) (j : Nat) (c : α), j < (l.takeWhile pr).length →
      l.get? j = some c → pr c = true := by
  intro l
  induction l with
  | nil => intro j c hj _; simp at hj
  | cons x xs ih =>
    intro j c hj h
    by_cases hx : pr x
    · cases j with
      | zero =>
        simp only [List.get?] at h
        injection h with h
        subst h
        exact hx
      | succ i =>
        simp only [List.takeWhile, hx, List.length_cons] at hj
        simp only [List.get?] at h
        exact ih i c (by omega) h
    · simp [List.takeWhile, hx] at hj

theorem takeWhile_len_le {α : Type} (pr : α → Bool) (l : List α) :
    (l.takeWhile pr).length ≤ l.length := by
  induction l with
  | nil => simp
  | cons x xs ih =>
    by_cases h : pr x
    · simp only [List.takeWhile, h, List.length_cons]
      omega
    · simp [List.takeWhile, h]

theorem sget_some (l : List Char) (q : Nat) (c : Char) (h : l.get? q = some c) :
    sget ⟨l, q, false, false⟩ = (some c, ⟨l, q + 1, false, false⟩) := by
  have h2 : l[q]? = some c := by rwa [List.get?_eq_getElem?] at h
  simp [sget, h2]

theorem sget_none (l : List Char) (q : Nat) (h : l.get? q = none) :
    sget ⟨l, q, false, false⟩ = (none, ⟨l, q, true, true⟩) := by
  have h2 : l[q]? = none := by rwa [List.get?_eq_getElem?] at h
  simp [sget, h2]

theorem speek_some (l : List Char) (q : Nat) (c : Char) (h : l.get? q = some c) :
    speek ⟨l, q, false, false⟩ = (some c, ⟨l, q, false, false⟩) := by
  have h2 : l[q]? = some c := by rwa [List.get?_eq_getElem?] at h
  simp [speek, h2]

theorem speek_none (l : List Char) (q : Nat) (h : l.get? q = none) :
    speek ⟨l, q, false, false⟩ = (none, ⟨l, q, true, false⟩) := by
  have h2 : l[q]? = none := by rwa [List.get?_eq_getElem?] at h
  simp [speek, h2]

theorem sunget_ok (l : List Char) (q : Nat) (e : Bool) (h : q ≠ 0) :
    sunget ⟨l, q, e, false⟩ = ⟨l, q - 1, false, false⟩ := by
  simp [sunget, h]

theorem sunget_fail (l : List Char) (q : Nat) (e : Bool) :
    sunget ⟨l, q, e, true⟩ = ⟨l, q, false, true⟩ := by
  simp [sunget]

theorem wsrun_le {s : lex_state} {p : Nat} {c : Char}
    (hc : s.input.get? p = some c) (hcw : iswsp c = false) (hp : s.pos ≤ p) :
    wsrun s ≤ p - s.pos := by
  unfold wsrun
  apply takeWhile_len_le_of_fail iswsp (s.input.drop s.pos) (p - s.pos) c _ hcw
  rw [List.get?_drop, Nat.add_sub_cancel' hp]
  exact hc

theorem wsrun_stop {s : lex_state} {c : Char}
    (hc : s.input.get? (s.pos + wsrun s) = some c) : iswsp c = false := by
  apply takeWhile_stop iswsp (s.input.drop s.pos) c
  rw [List.get?_drop]
  exact hc

theorem wsrun_zero {s : lex_state} {c : Char}
    (hc : s.input.get? s.pos = some c) (hcw : iswsp c = false) : wsrun s = 0 := by
  have h := takeWhile_len_le_of_fail iswsp (s.input.drop s.pos) 0 c
    (by rw [List.get?_drop]; simpa using hc) hcw
  unfold wsrun
  omega

theorem skip_ws_good {s : lex_state} (he : s.eofb = false) (hf : s.failb = false)
    (hq : s.pos + wsrun s < s.input.length) :
    skip_ws s = ⟨s.input, s.pos + wsrun s, false, false⟩ := by
  obtain ⟨l, pos, eb, fb⟩ := s
  simp only at he hf
  subst he hf
  simp only [skip_ws, Bool.or_self, Bool.false_eq_true, if_false, if_neg]
  rw [if_pos hq]

theorem skip_ws_noop (l : List Char) (q : Nat) (c : Char)
    (hc : l.get? q = some c) (hcw : iswsp c = false) :
    skip_ws ⟨l, q, false, false⟩ = ⟨l, q, false, false⟩ := by
  have h0 : wsrun ⟨l, q, false, false⟩ = 0 := wsrun_zero (s := ⟨l, q, false, false⟩) hc hcw
  have hlt : q < l.length := get?_lt hc
  simp [skip_ws, h0, hlt]

theorem ungetN_ok (l : List Char) :
    ∀ (k m : Nat), k ≤ m → ungetN k ⟨l, m, false, false⟩ = ⟨l, m - k, false, false⟩ := by
  intro k
  induction k with
  | zero => intro m _; simp [ungetN]
  | succ j ih =>
    intro m hm
    rw [ungetN, sunget_ok l m false (by omega), ih (m - 1) (by omega)]
    congr 1
    omega

theorem ungetN_clear (l : List Char) (k m : Nat) (e : Bool) (hk : 1 ≤ k) (hm : k ≤ m) :
    ungetN k ⟨l, m, e, false⟩ = ⟨l, m - k, false, false⟩ := by
  cases k with
  | zero => omega
  | succ j =>
    rw [ungetN, sunget_ok l m e (by omega), ungetN_ok l j (m - 1) (by omega)]
    congr 1
    omega

theorem nt_out_mk (l : List Char) (q n : Nat) (idv : Int) (val : String) (eb : Bool)
    (hn : val.length = n) (h1 : 1 ≤ n) (hid : idv ≠ expression_lexer.END)
    (heb : eb = true → q + n = l.length)
    (hbang : ∀ p, bang_in_at l p → q ≤ p →
        ((idv = expression_lexer.OPERATOR ∧ val = "!in") ∨ q + n ≤ p)) :
    nt_out l q ⟨idv, val⟩ ⟨l, q + n, eb, false⟩ := by
  refine ⟨rfl, hid, ?_, ?_, rfl, ?_, ?_, ?_⟩
  · show 1 ≤ val.length
    omega
  · show q + n = q + val.length
    omega
  · intro h
    exact heb h
  · show ungetN val.length _ = _
    rw [hn, ungetN_clear l n (q + n) eb h1 (by omega)]
    congr 1
    omega
  · intro p hb hp
    rcases hbang p hb hp with h | h
    · exact Or.inl h
    · right
      simp only [hn]
      omega

theorem char_at_ne {l : List Char} {i : Nat} {a b : Char}
    (h1 : l.get? i = some a) (h2 : l.get? i = some b) (hne : a ≠ b) : False := by
  rw [h1] at h2
  exact hne (Option.some.inj h2)

theorem bang_past_end {l : List Char} {p m : Nat}
    (hb : bang_in_at l p) (hlen : l.get? m = none) (hp : p + 3 ≥ m) : False := by
  obtain ⟨-, -, -, cw, hb3, -⟩ := hb
  have h1 : p + 3 < l.length := get?_lt hb3
  have h2 : l.length ≤ m := List.get?_eq_none.mp hlen
  omega

/- ===================== Lexer characterization ===================== -/

set_option maxHeartbeats 2000000 in
/-- Characterization of one successful `next_token_core` step from a good
state whose current character `c` is not whitespace: the token is not END,
it consumed exactly its value's characters, `put_back` undoes the
consumption, and if a reserved `!in` occurrence lies at or beyond the
current position then either this token is the `!in` OPERATOR token or the
token ends at or before that occurrence. -/
theorem core_spec (l : List Char) (q : Nat) (c : Char)
    (hc : l.get? q = some c) (hcw : iswsp c = false)
    (t : expression_lex_token) (s' : lex_state)
    (hok : next_token_core ⟨l, q, false, false⟩ = .ok (t, s'))
    (hnb : s'.failb = false ∨ ∃ p, bang_in_at l p ∧ q ≤ p) :
    nt_out l q t s' := by
  unfold next_token_core at hok
  rw [sget_some l q c hc] at hok
  simp only at hok
  by_cases h1 : c = '|'
  · rw [if_pos h1] at hok
    cases hd : l.get? (q + 1) with
    | none =>
      rw [sget_none _ _ hd] at hok
      simp only at hok
      rw [if_neg (by simp)] at hok
      exact Except.noConfusion hok
    | some d =>
      rw [sget_some _ _ _ hd] at hok
      simp only at hok
      by_cases h2 : d = '|'
      · subst h2
        rw [if_pos rfl] at hok
        rw [Except.ok.injEq, Prod.mk.injEq] at hok
        obtain ⟨rfl, rfl⟩ := hok
        refine nt_out_mk l q 2 expression_lexer.OR "||" false rfl (by omega) (by decide)
          (fun h => absurd h (by decide)) ?_
        intro p hb hp
        right
        obtain ⟨hb0, hb1, -⟩ := hb
        rcases Nat.lt_or_ge p (q + 2) with hlt | hge
        · exfalso
          rcases (by omega : p = q ∨ p = q + 1) with rfl | rfl
          · rw [h1] at hc
            exact char_at_ne hc hb0 (by decide)
          · exact char_at_ne hd hb0 (by decide)
        · exact hge
      · rw [if_neg (fun hh => h2 (Option.some.inj hh))] at hok
        exact Except.noConfusion hok
  rw [if_neg h1] at hok
  by_cases h2 : c = '&'
  · rw [if_pos h2] at hok
    cases hd : l.get? (q + 1) with
    | none =>
      rw [sget_none _ _ hd] at hok
      simp only at hok
      rw [if_neg (by simp)] at hok
      exact Except.noConfusion hok
    | some d =>
      rw [sget_some _ _ _ hd] at hok
      simp only at hok
      by_cases h3 : d = '&'
      · subst h3
        rw [if_pos rfl] at hok
        rw [Except.ok.injEq, Prod.mk.injEq] at hok
        obtain ⟨rfl, rfl⟩ := hok
        refine nt_out_mk l q 2 expression_lexer.AND "&&" false rfl (by omega) (by decide)
          (fun h => absurd h (by decide)) ?_
        intro p hb hp
        right
        obtain ⟨hb0, hb1, -⟩ := hb
        rcases Nat.lt_or_ge p (q + 2) with hlt | hge
        · exfalso
          rcases (by omega : p = q ∨ p = q + 1) with rfl | rfl
          · rw [h2] at hc
            exact char_at_ne hc hb0 (by decide)
          · exact char_at_ne hd hb0 (by decide)
        · exact hge
      · rw [if_neg (fun hh => h3 (Option.some.inj hh))] at hok
        exact Except.noConfusion hok
  rw [if_neg h2] at hok
  by_cases h3 : c = '!'
  · rw [if_pos h3] at hok
    cases hd : l.get? (q + 1) with
    | none =>
      rw [sget_none _ _ hd] at hok
      simp only at hok
      rw [if_neg (by simp), if_neg (by simp), sunget_fail] at hok
      rw [Except.ok.injEq, Prod.mk.injEq] at hok
      obtain ⟨rfl, rfl⟩ := hok
      rcases hnb with hf | ⟨p, hb, hp⟩
      · simp at hf
      · exact absurd (bang_past_end hb hd (by omega)) (fun h => h)
    | some d =>
      rw [sget_some _ _ _ hd] at hok
      simp only at hok
      by_cases h4 : d = '='
      · subst h4
        rw [if_pos rfl] at hok
        rw [Except.ok.injEq, Prod.mk.injEq] at hok
        obtain ⟨rfl, rfl⟩ := hok
        refine nt_out_mk l q 2 expression_lexer.OPERATOR "!=" false rfl (by omega) (by decide)
          (fun h => absurd h (by decide)) ?_
        intro p hb hp
        right
        obtain ⟨hb0, hb1, -⟩ := hb
        rcases Nat.lt_or_ge p (q + 2) with hlt | hge
        · exfalso
          rcases (by omega : p = q ∨ p = q + 1) with rfl | rfl
          · exact char_at_ne hd hb1 (by decide)
          · exact char_at_ne hd hb0 (by decide)
        · exact hge
      rw [if_neg (fun hh => h4 (Option.some.inj hh))] at hok
      by_cases h5 : d = 'i'
      · subst h5
        rw [if_pos rfl] at hok
        cases he : l.get? (q + 1 + 1) with
        | none =>
          rw [sget_none _ _ he] at hok
          simp only at hok
          rw [if_neg (by simp), sunget_fail, sunget_fail] at hok
          rw [Except.ok.injEq, Prod.mk.injEq] at hok
          obtain ⟨rfl, rfl⟩ := hok
          rcases hnb with hf | ⟨p, hb, hp⟩
          · simp at hf
          · exact absurd (bang_past_end hb he (by omega)) (fun h => h)
        | some e2 =>
          rw [sget_some _ _ _ he] at hok
          simp only at hok
          by_cases h6 : e2 = 'n'
          · subst h6
            rw [if_pos rfl] at hok
            cases hf : l.get? (q + 1 + 1 + 1) with
            | none =>
              rw [speek_none _ _ hf] at hok
              simp only [wspeek] at hok
              rw [if_neg (by simp)] at hok
              rw [sunget_ok _ _ _ (by omega)] at hok
              rw [show sunget ⟨l, q + 1 + 1 + 1 - 1, false, false⟩
                    = ⟨l, q + 1, false, false⟩ from sunget_ok l (q + 1 + 1) false (by omega)] at hok
              rw [Except.ok.injEq, Prod.mk.injEq] at hok
              obtain ⟨rfl, rfl⟩ := hok
              refine nt_out_mk l q 1 expression_lexer.NOT "!" false rfl (by omega) (by decide)
                (fun h => absurd h (by decide)) ?_
              intro p hb hp
              right
              rcases Nat.lt_or_ge p (q + 1) with hlt | hge
              · exfalso
                have hpq : p = q := by omega
                subst hpq
                obtain ⟨-, -, -, cw, hb3, -⟩ := hb
                rw [show p + 3 = p + 1 + 1 + 1 from by omega] at hb3
                rw [hf] at hb3
                cases hb3
              · exact hge
            | some w =>
              rw [speek_some _ _ _ hf] at hok
              simp only [wspeek] at hok
              by_cases hw : iswsp w = true
              · rw [if_pos hw] at hok
                rw [Except.ok.injEq, Prod.mk.injEq] at hok
                obtain ⟨rfl, rfl⟩ := hok
                refine nt_out_mk l q 3 expression_lexer.OPERATOR "!in" false rfl (by omega)
                  (by decide) (fun h => absurd h (by decide)) ?_
                intro p hb hp
                exact Or.inl ⟨rfl, rfl⟩
              · rw [if_neg hw] at hok
                rw [show sunget ⟨l, q + 1 + 1 + 1, false, false⟩
                      = ⟨l, q + 1 + 1, false, false⟩ from sunget_ok l (q + 1 + 1 + 1) false (by omega)] at hok
                rw [show sunget ⟨l, q + 1 + 1, false, false⟩
                      = ⟨l, q + 1, false, false⟩ from sunget_ok l (q + 1 + 1) false (by omega)] at hok
                rw [Except.ok.injEq, Prod.mk.injEq] at hok
                obtain ⟨rfl, rfl⟩ := hok
                refine nt_out_mk l q 1 expression_lexer.NOT "!" false rfl (by omega) (by decide)
                  (fun h => absurd h (by decide)) ?_
                intro p hb hp
                right
                rcases Nat.lt_or_ge p (q + 1) with hlt | hge
                · exfalso
                  have hpq : p = q := by omega
                  subst hpq
                  obtain ⟨-, -, -, cw, hb3, hbw⟩ := hb
                  rw [show p + 3 = p + 1 + 1 + 1 from by omega] at hb3
                  rw [hf] at hb3
                  rw [Option.some.inj hb3] at hw
                  exact hw hbw
                · exact hge
          · rw [if_neg (fun hh => h6 (Option.some.inj hh))] at hok
            rw [show sunget ⟨l, q + 1 + 1 + 1, false, false⟩
                  = ⟨l, q + 1 + 1, false, false⟩ from sunget_ok l (q + 1 + 1 + 1) false (by omega)] at hok
            rw [show sunget ⟨l, q + 1 + 1, false, false⟩
                  = ⟨l, q + 1, false, false⟩ from sunget_ok l (q + 1 + 1) false (by omega)] at hok
            rw [Except.ok.injEq, Prod.mk.injEq] at hok
            obtain ⟨rfl, rfl⟩ := hok
            refine nt_out_mk l q 1 expression_lexer.NOT "!" false rfl (by omega) (by decide)
              (fun h => absurd h (by decide)) ?_
            intro p hb hp
            right
            rcases Nat.lt_or_ge p (q + 1) with hlt | hge
            · exfalso
              have hpq : p = q := by omega
              subst hpq
              obtain ⟨-, -, hb2, -⟩ := hb
              rw [show p + 2 = p + 1 + 1 from by omega] at hb2
              exact char_at_ne he hb2 h6
            · exact hge
      · rw [if_neg (fun hh => h5 (Option.some.inj hh))] at hok
        rw [show sunget ⟨l, q + 1 + 1, false, false⟩
              = ⟨l, q + 1, false, false⟩ from sunget_ok l (q + 1 + 1) false (by omega)] at hok
        rw [Except.ok.injEq, Prod.mk.injEq] at hok
        obtain ⟨rfl, rfl⟩ := hok
        refine nt_out_mk l q 1 expression_lexer.NOT "!" false rfl (by omega) (by decide)
          (fun h => absurd h (by decide)) ?_
        intro p hb hp
        right
        rcases Nat.lt_or_ge p (q + 1) with hlt | hge
        · exfalso
          have hpq : p = q := by omega
          subst hpq
          obtain ⟨-, hb1, -⟩ := hb
          exact char_at_ne hd hb1 h5
        · exact hge
  rw [if_neg h3] at hok
  by_cases h4 : c = '('
  · rw [if_pos h4] at hok
    rw [Except.ok.injEq, Prod.mk.injEq] at hok
    obtain ⟨rfl, rfl⟩ := hok
    refine nt_out_mk l q 1 expression_lexer.LEFT "(" false rfl (by omega) (by decide)
      (fun h => absurd h (by decide)) ?_
    intro p hb hp
    right
    rcases Nat.lt_or_ge p (q + 1) with hlt | hge
    · exfalso
      have hpq : p = q := by omega
      subst hpq
      rw [h4] at hc
      exact char_at_ne hc hb.1 (by decide)
    · exact hge
  rw [if_neg h4] at hok
  by_cases h5 : c = ')'
  · rw [if_pos h5] at hok
    rw [Except.ok.injEq, Prod.mk.injEq] at hok
    obtain ⟨rfl, rfl⟩ := hok
    refine nt_out_mk l q 1 expression_lexer.RIGHT ")" false rfl (by omega) (by decide)
      (fun h => absurd h (by decide)) ?_
    intro p hb hp
    right
    rcases Nat.lt_or_ge p (q + 1) with hlt | hge
    · exfalso
      have hpq : p = q := by omega
      subst hpq
      rw [h5] at hc
      exact char_at_ne hc hb.1 (by decide)
    · exact hge
  rw [if_neg h5] at hok
  by_cases h6 : c = '='
  · rw [if_pos h6] at hok
    cases hd : l.get? (q + 1) with
    | none =>
      rw [sget_none _ _ hd] at hok
      simp only at hok
      rw [if_neg (by simp)] at hok
      exact Except.noConfusion hok
    | some d =>
      rw [sget_some _ _ _ hd] at hok
      simp only at hok
      by_cases h7 : d = '='
      · subst h7
        rw [if_pos rfl] at hok
        rw [Except.ok.injEq, Prod.mk.injEq] at hok
        obtain ⟨rfl, rfl⟩ := hok
        refine nt_out_mk l q 2 expression_lexer.OPERATOR "==" false rfl (by omega) (by decide)
          (fun h => absurd h (by decide)) ?_
        intro p hb hp
        right
        obtain ⟨hb0, hb1, -⟩ := hb
        rcases Nat.lt_or_ge p (q + 2) with hlt | hge
        · exfalso
          rcases (by omega : p = q ∨ p = q + 1) with rfl | rfl
          · rw [h6] at hc
            exact char_at_ne hc hb0 (by decide)
          · exact char_at_ne hd hb0 (by decide)
        · exact hge
      · rw [if_neg (fun hh => h7 (Option.some.inj hh))] at hok
        exact Except.noConfusion hok
  rw [if_neg h6] at hok
  by_cases h7 : c = '<'
  · rw [if_pos h7] at hok
    cases hd : l.get? (q + 1) with
    | none =>
      rw [sget_none _ _ hd] at hok
      simp only at hok
      rw [if_neg (by simp), sunget_fail] at hok
      rw [Except.ok.injEq, Prod.mk.injEq] at hok
      obtain ⟨rfl, rfl⟩ := hok
      rcases hnb with hf | ⟨p, hb, hp⟩
      · simp at hf
      · exact absurd (bang_past_end hb hd (by omega)) (fun h => h)
    | some d =>
      rw [sget_some _ _ _ hd] at hok
      simp only at hok
      by_cases h8 : d = '='
      · subst h8
        rw [if_pos rfl] at hok
        rw [Except.ok.injEq, Prod.mk.injEq] at hok
        obtain ⟨rfl, rfl⟩ := hok
        refine nt_out_mk l q 2 expression_lexer.OPERATOR "<=" false rfl (by omega) (by decide)
          (fun h => absurd h (by decide)) ?_
        intro p hb hp
        right
        obtain ⟨hb0, hb1, -⟩ := hb
        rcases Nat.lt_or_ge p (q + 2) with hlt | hge
        · exfalso
          rcases (by omega : p = q ∨ p = q + 1) with rfl | rfl
          · rw [h7] at hc
            exact char_at_ne hc hb0 (by decide)
          · exact char_at_ne hd hb0 (by decide)
        · exact hge
      · rw [if_neg (fun hh => h8 (Option.some.inj hh))] at hok
        rw [show sunget ⟨l, q + 1 + 1, false, false⟩
              = ⟨l, q + 1, false, false⟩ from sunget_ok l (q + 1 + 1) false (by omega)] at hok
        rw [Except.ok.injEq, Prod.mk.injEq] at hok
        obtain ⟨rfl, rfl⟩ := hok
        refine nt_out_mk l q 1 expression_lexer.OPERATOR "<" false rfl (by omega) (by decide)
          (fun h => absurd h (by decide)) ?_
        intro p hb hp
        right
        rcases Nat.lt_or_ge p (q + 1) with hlt | hge
        · exfalso
          have hpq : p = q := by omega
          subst hpq
          rw [h7] at hc
          exact char_at_ne hc hb.1 (by decide)
        · exact hge
  rw [if_neg h7] at hok
  by_cases h8 : c = '>'
  · rw [if_pos h8] at hok
    cases hd : l.get? (q + 1) with
    | none =>
      rw [sget_none _ _ hd] at hok
      simp only at hok
      rw [if_neg (by simp), sunget_fail] at hok
      rw [Except.ok.injEq, Prod.mk.injEq] at hok
      obtain ⟨rfl, rfl⟩ := hok
      rcases hnb with hf | ⟨p, hb, hp⟩
      · simp at hf
      · exact absurd (bang_past_end hb hd (by omega)) (fun h => h)
    | some d =>
      rw [sget_some _ _ _ hd] at hok
      simp only at hok
      by_cases h9 : d = '='
      · subst h9
        rw [if_pos rfl] at hok
        rw [Except.ok.injEq, Prod.mk.injEq] at hok
        obtain ⟨rfl, rfl⟩ := hok
        refine nt_out_mk l q 2 expression_lexer.OPERATOR ">=" false rfl (by omega) (by decide)
          (fun h => absurd h (by decide)) ?_
        intro p hb hp
        right
        obtain ⟨hb0, hb1, -⟩ := hb
        rcases Nat.lt_or_ge p (q + 2) with hlt | hge
        · exfalso
          rcases (by omega : p = q ∨ p = q + 1) with rfl | rfl
          · rw [h8] at hc
            exact char_at_ne hc hb0 (by decide)
          · exact char_at_ne hd hb0 (by decide)
        · exact hge
      · rw [if_neg (fun hh => h9 (Option.some.inj hh))] at hok
        rw [show sunget ⟨l, q + 1 + 1, false, false⟩
              = ⟨l, q + 1, false, false⟩ from sunget_ok l (q + 1 + 1) false (by omega)] at hok
        rw [Except.ok.injEq, Prod.mk.injEq] at hok
        obtain ⟨rfl, rfl⟩ := hok
        refine nt_out_mk l q 1 expression_lexer.OPERATOR ">" false rfl (by omega) (by decide)
          (fun h => absurd h (by decide)) ?_
        intro p hb hp
        right
        rcases Nat.lt_or_ge p (q + 1) with hlt | hge
        · exfalso
          have hpq : p = q := by omega
          subst hpq
          rw [h8] at hc
          exact char_at_ne hc hb.1 (by decide)
        · exact hge
  rw [if_neg h8] at hok
  by_cases h9 : opvalid c = true
  · rw [if_pos h9] at hok
    rw [show sunget ⟨l, q + 1, false, false⟩
          = ⟨l, q, false, false⟩ from sunget_ok l (q + 1) false (by omega)] at hok
    unfold read_operand at hok
    simp only at hok
    have hdrop : l.drop q = c :: l.drop (q + 1) := by
      obtain ⟨hlt, hget⟩ := List.get?_eq_some.mp hc
      rw [List.drop_eq_get_cons hlt, hget]
    have hrun_cons : (l.drop q).takeWhile opvalid
        = c :: (l.drop (q + 1)).takeWhile opvalid := by
      rw [hdrop]
      simp [List.takeWhile, h9]
    have hlen1 : 1 ≤ ((l.drop q).takeWhile opvalid).length := by
      rw [hrun_cons]
      simp
    have hlenle : q + ((l.drop q).takeWhile opvalid).length ≤ l.length := by
      have h1 : ((l.drop q).takeWhile opvalid).length ≤ (l.drop q).length :=
        takeWhile_len_le _ _
      rw [List.length_drop] at h1
      have h2 : q < l.length := get?_lt hc
      omega
    have hbang : ∀ p, bang_in_at l p → q ≤ p →
        ((expression_lexer.OPERAND = expression_lexer.OPERATOR
            ∧ String.mk ((l.drop q).takeWhile opvalid) = "!in")
          ∨ q + ((l.drop q).takeWhile opvalid).length ≤ p) := by
      intro p hb hp
      right
      rcases Nat.lt_or_ge p (q + ((l.drop q).takeWhile opvalid).length) with hlt | hge
      · exfalso
        have hsat := takeWhile_sat opvalid (l.drop q) (p - q) '!' (by omega)
          (by rw [List.get?_drop, show q + (p - q) = p from by omega]; exact hb.1)
        exact absurd hsat (by decide)
      · exact hge
    by_cases hend : q + ((l.drop q).takeWhile opvalid).length < l.length
    · rw [if_pos hend] at hok
      rw [Except.ok.injEq, Prod.mk.injEq] at hok
      obtain ⟨rfl, rfl⟩ := hok
      exact nt_out_mk l q ((l.drop q).takeWhile opvalid).length expression_lexer.OPERAND
        (String.mk ((l.drop q).takeWhile opvalid)) false rfl hlen1 (by decide)
        (fun h => absurd h (by decide)) hbang
    · rw [if_neg hend] at hok
      rw [Except.ok.injEq, Prod.mk.injEq] at hok
      obtain ⟨rfl, rfl⟩ := hok
      exact nt_out_mk l q ((l.drop q).takeWhile opvalid).length expression_lexer.OPERAND
        (String.mk ((l.drop q).takeWhile opvalid)) true rfl hlen1 (by decide)
        (fun _ => by omega) hbang
  · rw [if_neg h9] at hok
    exact Except.noConfusion hok

theorem bang_q_le {s : lex_state} {p : Nat} (hb : bang_in_at s.input p) (hp : s.pos ≤ p) :
    s.pos + wsrun s ≤ p ∧ s.pos + wsrun s < s.input.length := by
  have h1 := get?_lt hb.1
  have h2 := wsrun_le hb.1 (by decide) hp
  exact ⟨by omega, by omega⟩

/-- A successful `next_token` from a good state with remaining input is
fully characterized by `core_spec`, and re-reading after `put_back`
reproduces the same token and state. -/
theorem next_token_spec (s : lex_state) (t : expression_lex_token) (s' : lex_state)
    (hg : s.eofb = false) (hf : s.failb = false)
    (hq : s.pos + wsrun s < s.input.length)
    (hok : next_token s = .ok (t, s'))
    (hnb : s'.failb = false ∨ ∃ p, bang_in_at s.input p ∧ s.pos ≤ p) :
    nt_out s.input (s.pos + wsrun s) t s'
    ∧ next_token (put_back s' t) = .ok (t, s') := by
  have hsw : skip_ws s = ⟨s.input, s.pos + wsrun s, false, false⟩ := skip_ws_good hg hf hq
  rw [next_token, hsw] at hok
  obtain ⟨c, hc⟩ : ∃ c, s.input.get? (s.pos + wsrun s) = some c := by
    cases h : s.input.get? (s.pos + wsrun s) with
    | none => exact absurd (List.get?_eq_none.mp h) (by omega)
    | some c => exact ⟨c, rfl⟩
  have hcw : iswsp c = false := wsrun_stop hc
  have hnb' : s'.failb = false ∨ ∃ p, bang_in_at s.input p ∧ s.pos + wsrun s ≤ p := by
    rcases hnb with h | ⟨p, hb, hp⟩
    · exact Or.inl h
    · exact Or.inr ⟨p, hb, (bang_q_le hb hp).1⟩
  have hcore := core_spec s.input (s.pos + wsrun s) c hc hcw t s' hok hnb'
  refine ⟨hcore, ?_⟩
  have hpb : put_back s' t = ⟨s.input, s.pos + wsrun s, false, false⟩ :=
    hcore.2.2.2.2.2.2.1
  rw [hpb, next_token, skip_ws_noop _ _ c hc hcw]
  exact hok

theorem skip_ws_bad (s : lex_state) (h : s.eofb = true ∨ s.failb = true) :
    skip_ws s = { s with failb := true } := by
  unfold skip_ws
  rcases h with h | h <;> simp [h]

theorem sget_bad (s : lex_state) (h : s.eofb = true ∨ s.failb = true) :
    sget s = (none, { s with failb := true }) := by
  unfold sget
  rcases h with h | h <;> simp [h]

theorem core_bad (s0 : lex_state) (h : s0.eofb = true ∨ s0.failb = true) :
    next_token_core s0 = .ok (⟨expression_lexer.END, ""⟩, { s0 with failb := true }) := by
  unfold next_token_core
  rw [sget_bad s0 h]

theorem next_token_bad (s : lex_state) (h : s.eofb = true ∨ s.failb = true) :
    next_token s = .ok (⟨expression_lexer.END, ""⟩, { s with failb := true }) := by
  rw [next_token, skip_ws_bad s h, core_bad _ (Or.inr rfl)]

theorem next_token_at_end (s : lex_state) (hg : s.eofb = false) (hf : s.failb = false)
    (hq : ¬ s.pos + wsrun s < s.input.length) :
    next_token s
      = .ok (⟨expression_lexer.END, ""⟩, ⟨s.input, s.pos + wsrun s, true, true⟩) := by
  have hsw : skip_ws s = ⟨s.input, s.pos + wsrun s, true, false⟩ := by
    obtain ⟨l, pos, eb, fb⟩ := s
    simp only at hg hf hq
    subst hg hf
    simp [skip_ws, hq]
  rw [next_token, hsw, core_bad _ (Or.inl rfl)]

theorem next_token_pre (s : lex_state) (t : expression_lex_token) (s' : lex_state)
    (hok : next_token s = .ok (t, s')) (hf : s'.failb = false) :
    s.eofb = false ∧ s.failb = false ∧ s.pos + wsrun s < s.input.length := by
  by_cases hbad : s.eofb = true ∨ s.failb = true
  · rw [next_token_bad s hbad] at hok
    rw [Except.ok.injEq, Prod.mk.injEq] at hok
    obtain ⟨-, rfl⟩ := hok
    simp at hf
  · simp only [not_or, Bool.not_eq_true] at hbad
    refine ⟨hbad.1, hbad.2, ?_⟩
    by_contra hq
    rw [next_token_at_end s hbad.1 hbad.2 hq] at hok
    rw [Except.ok.injEq, Prod.mk.injEq] at hok
    obtain ⟨-, rfl⟩ := hok
    simp at hf

set_option maxHeartbeats 1000000 in
theorem core_ne_end (l : List Char) (q : Nat) (c : Char)
    (hc : l.get? q = some c)
    (t : expression_lex_token) (s' : lex_state)
    (hok : next_token_core ⟨l, q, false, false⟩ = .ok (t, s')) :
    t.id ≠ expression_lexer.END := by
  unfold next_token_core at hok
  rw [sget_some l q c hc] at hok
  simp only at hok
  split_ifs at hok <;>
    first
      | exact Except.noConfusion hok
      | (rw [Except.ok.injEq, Prod.mk.injEq] at hok
         obtain ⟨rfl, -⟩ := hok
         simp only [expression_lexer.OR, expression_lexer.AND, expression_lexer.NOT,
           expression_lexer.LEFT, expression_lexer.RIGHT, expression_lexer.OPERATOR,
           expression_lexer.OPERAND, expression_lexer.END, ne_eq]
         decide)

theorem end_token_next (s : lex_state) (t : expression_lex_token) (s' : lex_state)
    (hok : next_token s = .ok (t, s')) (hid : t.id = expression_lexer.END) :
    t.value = "" ∧ next_token (put_back s' t) = .ok (t, s') := by
  have key : t = ⟨expression_lexer.END, ""⟩ ∧ s'.failb = true := by
    by_cases hbad : s.eofb = true ∨ s.failb = true
    · rw [next_token_bad s hbad] at hok
      rw [Except.ok.injEq, Prod.mk.injEq] at hok
      obtain ⟨rfl, rfl⟩ := hok
      exact ⟨rfl, rfl⟩
    · simp only [not_or, Bool.not_eq_true] at hbad
      by_cases hq : s.pos + wsrun s < s.input.length
      · exfalso
        have hsw : skip_ws s = ⟨s.input, s.pos + wsrun s, false, false⟩ :=
          skip_ws_good hbad.1 hbad.2 hq
        rw [next_token, hsw] at hok
        obtain ⟨c, hc⟩ : ∃ c, s.input.get? (s.pos + wsrun s) = some c := by
          cases h : s.input.get? (s.pos + wsrun s) with
          | none => exact absurd (List.get?_eq_none.mp h) (by omega)
          | some c => exact ⟨c, rfl⟩
        exact core_ne_end _ _ c hc t s' hok hid
      · rw [next_token_at_end s hbad.1 hbad.2 hq] at hok
        rw [Except.ok.injEq, Prod.mk.injEq] at hok
        obtain ⟨rfl, rfl⟩ := hok
        exact ⟨rfl, rfl⟩
  obtain ⟨rfl, hfb⟩ := key
  refine ⟨rfl, ?_⟩
  show next_token (ungetN (String.length "") s') = _
  have hs' : { s' with failb := true } = s' := by
    obtain ⟨l, pos, eb, fb⟩ := s'
    simp only at hfb
    subst hfb
    rfl
  rw [show String.length "" = 0 from rfl, ungetN, next_token_bad s' (Or.inr hfb), hs']

/- ===================== C2: negation pushdown ===================== -/

theorem has_not_negate (e : expression_t) (h : has_not e = false) :
    has_not (negate_exp e) = false := by
  induction e with
  | predicate a op v => rfl
  | conjunction l r ihl ihr =>
    simp only [has_not, Bool.or_eq_false_iff] at h
    simp only [negate_exp, has_not, Bool.or_eq_false_iff]
    exact ⟨ihl h.1, ihr h.2⟩
  | disjunction l r ihl ihr =>
    simp only [has_not, Bool.or_eq_false_iff] at h
    simp only [negate_exp, has_not, Bool.or_eq_false_iff]
    exact ⟨ihl h.1, ihr h.2⟩
  | negation c ih => simp [has_not] at h

theorem parser_no_not (fuel : Nat) :
    (∀ s e s', pfactor fuel s = .ok (e, s') → has_not e = false)
    ∧ (∀ s e s', pterm fuel s = .ok (e, s') → has_not e = false)
    ∧ (∀ s e s', pexp fuel s = .ok (e, s') → has_not e = false) := by
  induction fuel with
  | zero =>
    refine ⟨?_, ?_, ?_⟩ <;> (intro s e s' h; simp [pfactor, pterm, pexp] at h)
  | succ n ih =>
    obtain ⟨ihf, iht, ihe⟩ := ih
    refine ⟨?_, ?_, ?_⟩
    · intro s e s' h
      rw [pfactor] at h
      cases hnt : next_token s with
      | error e2 => rw [hnt] at h; cases h
      | ok ts =>
        obtain ⟨tok, s1⟩ := ts
        rw [hnt] at h
        simp only at h
        by_cases h1 : tok.id = expression_lexer.NOT
        · rw [if_pos h1] at h
          cases hpf : pfactor n s1 with
          | error e2 => rw [hpf] at h; cases h
          | ok fs =>
            obtain ⟨e1, s2⟩ := fs
            rw [hpf] at h
            simp only [Except.ok.injEq, Prod.mk.injEq] at h
            obtain ⟨he, _⟩ := h
            subst he
            exact has_not_negate e1 (ihf s1 e1 s2 hpf)
        · rw [if_neg h1] at h
          by_cases h2 : tok.id = expression_lexer.LEFT
          · rw [if_pos h2] at h
            cases hpe : pexp n s1 with
            | error e2 => rw [hpe] at h; cases h
            | ok es =>
              obtain ⟨e1, s2⟩ := es
              rw [hpe] at h
              simp only at h
              cases hnt2 : next_token s2 with
              | error e3 => rw [hnt2] at h; cases h
              | ok rs =>
                obtain ⟨r, s3⟩ := rs
                rw [hnt2] at h
                simp only at h
                by_cases h3 : r.id = expression_lexer.RIGHT
                · rw [if_pos h3] at h
                  simp only [Except.ok.injEq, Prod.mk.injEq] at h
                  obtain ⟨he, _⟩ := h
                  subst he
                  exact ihe s1 e1 s2 hpe
                · rw [if_neg h3] at h; cases h
          · rw [if_neg h2] at h
            by_cases h3 : tok.id = expression_lexer.OPERAND
            · rw [if_pos h3] at h
              cases hnt2 : next_token s1 with
              | error e2 => rw [hnt2] at h; cases h
              | ok os =>
                obtain ⟨opt, s2⟩ := os
                rw [hnt2] at h
                simp only at h
                by_cases h4 : opt.id = expression_lexer.OPERATOR
                · rw [if_pos h4] at h
                  cases hop : str_to_op opt.value with
                  | error e2 => rw [hop] at h; cases h
                  | ok op =>
                    rw [hop] at h
                    simp only at h
                    cases hnt3 : next_token s2 with
                    | error e3 => rw [hnt3] at h; cases h
                    | ok o2s =>
                      obtain ⟨operand2, s3⟩ := o2s
                      rw [hnt3] at h
                      simp only at h
                      by_cases h5 : operand2.id = expression_lexer.OPERAND
                      · rw [if_pos h5] at h
                        simp only [Except.ok.injEq, Prod.mk.injEq] at h
                        obtain ⟨he, _⟩ := h
                        subst he
                        rfl
                      · rw [if_neg h5] at h; cases h
                · rw [if_neg h4] at h; cases h
            · rw [if_neg h3] at h; cases h
    · intro s e s' h
      rw [pterm] at h
      cases hpf : pfactor n s with
      | error e2 => rw [hpf] at h; cases h
      | ok fs =>
        obtain ⟨f, s1⟩ := fs
        rw [hpf] at h
        simp only at h
        cases hpk : peek_token s1 with
        | error e2 => rw [hpk] at h; cases h
        | ok ks =>
          obtain ⟨tk, s2⟩ := ks
          rw [hpk] at h
          simp only at h
          by_cases h1 : tk.id = expression_lexer.AND
          · rw [if_pos h1] at h
            cases hnt : next_token s2 with
            | error e2 => rw [hnt] at h; cases h
            | ok ns =>
              obtain ⟨u, s3⟩ := ns
              rw [hnt] at h
              simp only at h
              cases hpt : pterm n s3 with
              | error e2 => rw [hpt] at h; cases h
              | ok ts =>
                obtain ⟨t, s4⟩ := ts
                rw [hpt] at h
                simp only [Except.ok.injEq, Prod.mk.injEq] at h
                obtain ⟨he, _⟩ := h
                subst he
                simp only [has_not, Bool.or_eq_false_iff]
                exact ⟨ihf s f s1 hpf, iht s3 t s4 hpt⟩
          · rw [if_neg h1] at h
            simp only [Except.ok.injEq, Prod.mk.injEq] at h
            obtain ⟨he, _⟩ := h
            subst he
            exact ihf s f s1 hpf
    · intro s e s' h
      rw [pexp] at h
      cases hpt : pterm n s with
      | error e2 => rw [hpt] at h; cases h
      | ok ts =>
        obtain ⟨t, s1⟩ := ts
        rw [hpt] at h
        simp only at h
        cases hpk : peek_token s1 with
        | error e2 => rw [hpk] at h; cases h
        | ok ks =>
          obtain ⟨tk, s2⟩ := ks
          rw [hpk] at h
          simp only at h
          by_cases h1 : tk.id = expression_lexer.OR
          · rw [if_pos h1] at h
            cases hnt : next_token s2 with
            | error e2 => rw [hnt] at h; cases h
            | ok ns =>
              obtain ⟨u, s3⟩ := ns
              rw [hnt] at h
              simp only at h
              cases hpe : pexp n s3 with
              | error e2 => rw [hpe] at h; cases h
              | ok es =>
                obtain ⟨e1, s4⟩ := es
                rw [hpe] at h
                simp only [Except.ok.injEq, Prod.mk.injEq] at h
                obtain ⟨he, _⟩ := h
                subst he
                simp only [has_not, Bool.or_eq_false_iff]
                exact ⟨iht s t s1 hpt, ihe s3 e1 s4 hpe⟩
          · rw [if_neg h1] at h
            simp only [Except.ok.injEq, Prod.mk.injEq] at h
            obtain ⟨he, _⟩ := h
            subst he
            exact iht s t s1 hpt

/-- C2.  For every successfully parsed predicate string, the AST returned by
`parse` contains only AND, OR and PREDICATE nodes — never a NOT node — and
in particular `!(a==1 && b==2)` parses to the same AST as `a!=1 || b!=2`,
and `!!(a==1)` parses to the same AST as `a==1`. -/
theorem c2_negation_pushdown :
    (∀ (str : String) (e : expression_t), parse str = .ok e → has_not e = false)
    ∧ parse "!(a==1 && b==2)" = parse "a!=1 || b!=2"
    ∧ parse "!!(a==1)" = parse "a==1" := by
  refine ⟨?_, ?_, ?_⟩
  · intro str e h
    unfold parse at h
    cases hpe : pexp (3 * str.length + 3) (init_state str) with
    | error e2 => rw [hpe] at h; cases h
    | ok es =>
      obtain ⟨e1, s1⟩ := es
      rw [hpe] at h
      simp only at h
      cases hnt : next_token s1 with
      | error e2 => rw [hnt] at h; cases h
      | ok ts =>
        obtain ⟨tok, s2⟩ := ts
        rw [hnt] at h
        simp only at h
        by_cases h1 : tok.id = expression_lexer.END
        · rw [if_pos h1] at h
          simp only [Except.ok.injEq] at h
          subst h
          exact (parser_no_not _).2.2 _ e1 s1 hpe
        · rw [if_neg h1] at h; cases h
  · have h1 : parse "!(a==1 && b==2)"
        = .ok (.disjunction (.predicate "a" .NEQ "1") (.predicate "b" .NEQ "2")) := by
      decide
    have h2 : parse "a!=1 || b!=2"
        = .ok (.disjunction (.predicate "a" .NEQ "1") (.predicate "b" .NEQ "2")) := by
      decide
    exact h1.trans h2.symm
  · have h1 : parse "!!(a==1)" = .ok (.predicate "a" .EQ "1") := by decide
    have h2 : parse "a==1" = .ok (.predicate "a" .EQ "1") := by decide
    exact h1.trans h2.symm

theorem c2_witness : has_not (.predicate "a" relop_id.EQ "1") = false :=
  c2_negation_pushdown.1 "a==1" (.predicate "a" relop_id.EQ "1") (by decide)


/- ===================== C7: the reserved bang-in token ===================== -/

theorem nt_out_B {l : List Char} {q : Nat} {tk : expression_lex_token}
    {s1 : lex_state} {p : Nat}
    (hno : nt_out l q tk s1) (hb : bang_in_at l p) (hq : q ≤ p)
    (hne : tk.id ≠ expression_lexer.OPERATOR ∨ tk.value ≠ "!in") :
    s1.input = l ∧ s1.eofb = false ∧ s1.failb = false ∧ s1.pos ≤ p := by
  obtain ⟨hin, -, -, -, hfb, heofb, -, hb8⟩ := hno
  have hple : s1.pos ≤ p := by
    rcases hb8 p hb hq with ⟨x1, x2⟩ | hx
    · rcases hne with hy | hy
      · exact absurd x1 hy
      · exact absurd x2 hy
    · exact hx
  have hlt : p < l.length := get?_lt hb.1
  have he : s1.eofb = false := by
    cases hse : s1.eofb
    · rfl
    · exfalso
      have := heofb hse
      omega
  exact ⟨hin, he, hfb, hple⟩

theorem step_invariant {s : lex_state} {p : Nat} {tok : expression_lex_token}
    {s1 : lex_state}
    (hg : s.eofb = false) (hf : s.failb = false)
    (hb : bang_in_at s.input p) (hp : s.pos ≤ p)
    (hnt : next_token s = .ok (tok, s1)) :
    nt_out s.input (s.pos + wsrun s) tok s1
    ∧ next_token (put_back s1 tok) = .ok (tok, s1) :=
  next_token_spec s tok s1 hg hf (bang_q_le hb hp).2 hnt (Or.inr ⟨p, hb, hp⟩)

theorem step_B {s : lex_state} {p : Nat} {tok : expression_lex_token} {s1 : lex_state}
    (hg : s.eofb = false) (hf : s.failb = false)
    (hb : bang_in_at s.input p) (hp : s.pos ≤ p)
    (hnt : next_token s = .ok (tok, s1))
    (hne : tok.id ≠ expression_lexer.OPERATOR ∨ tok.value ≠ "!in") :
    s1.input = s.input ∧ s1.eofb = false ∧ s1.failb = false ∧ s1.pos ≤ p :=
  nt_out_B (step_invariant hg hf hb hp hnt).1 hb (bang_q_le hb hp).1 hne

theorem peek_B {s : lex_state} {p : Nat} {tk : expression_lex_token} {spk : lex_state}
    (hg : s.eofb = false) (hf : s.failb = false)
    (hb : bang_in_at s.input p) (hp : s.pos ≤ p)
    (hpk : peek_token s = .ok (tk, spk)) :
    spk = ⟨s.input, s.pos + wsrun s, false, false⟩ ∧ s.pos + wsrun s ≤ p
    ∧ ∃ s1, next_token s = .ok (tk, s1) ∧ next_token spk = .ok (tk, s1)
        ∧ nt_out s.input (s.pos + wsrun s) tk s1 := by
  unfold peek_token at hpk
  cases hnt : next_token s with
  | error e2 => rw [hnt] at hpk; cases hpk
  | ok ts =>
    obtain ⟨t1, s1⟩ := ts
    rw [hnt] at hpk
    simp only [Except.ok.injEq, Prod.mk.injEq] at hpk
    obtain ⟨rfl, rfl⟩ := hpk
    obtain ⟨hno, hrelex⟩ := step_invariant hg hf hb hp hnt
    have hpb := hno.2.2.2.2.2.2.1
    rw [hpb] at hrelex
    exact ⟨hpb, (bang_q_le hb hp).1, s1, rfl, by rw [hpb]; exact hrelex, hno⟩

theorem parser_bang (fuel : Nat) :
    (∀ (s : lex_state) (p : Nat) (e : expression_t) (s' : lex_state),
        s.eofb = false → s.failb = false → bang_in_at s.input p → s.pos ≤ p →
        pfactor fuel s = .ok (e, s') →
        s'.input = s.input ∧ s'.eofb = false ∧ s'.failb = false ∧ s'.pos ≤ p)
    ∧ (∀ (s : lex_state) (p : Nat) (e : expression_t) (s' : lex_state),
        s.eofb = false → s.failb = false → bang_in_at s.input p → s.pos ≤ p →
        pterm fuel s = .ok (e, s') →
        s'.input = s.input ∧ s'.eofb = false ∧ s'.failb = false ∧ s'.pos ≤ p)
    ∧ (∀ (s : lex_state) (p : Nat) (e : expression_t) (s' : lex_state),
        s.eofb = false → s.failb = false → bang_in_at s.input p → s.pos ≤ p →
        pexp fuel s = .ok (e, s') →
        s'.input = s.input ∧ s'.eofb = false ∧ s'.failb = false ∧ s'.pos ≤ p) := by
  induction fuel with
  | zero =>
    refine ⟨?_, ?_, ?_⟩ <;> (intro s p e s' _ _ _ _ h; simp [pfactor, pterm, pexp] at h)
  | succ n ih =>
    obtain ⟨ihf, iht, ihe⟩ := ih
    refine ⟨?_, ?_, ?_⟩
    · intro s p e s' hg hf hb hp h
      rw [pfactor] at h
      cases hnt : next_token s with
      | error e2 => rw [hnt] at h; cases h
      | ok ts =>
        obtain ⟨tok, s1⟩ := ts
        rw [hnt] at h
        simp only at h
        by_cases h1 : tok.id = expression_lexer.NOT
        · rw [if_pos h1] at h
          obtain ⟨hin1, he1, hf1, hp1⟩ := step_B hg hf hb hp hnt
            (Or.inl (by rw [h1]; decide))
          cases hpf : pfactor n s1 with
          | error e2 => rw [hpf] at h; cases h
          | ok fs =>
            obtain ⟨e1, s2⟩ := fs
            rw [hpf] at h
            simp only [Except.ok.injEq, Prod.mk.injEq] at h
            obtain ⟨-, rfl⟩ := h
            have hrec := ihf s1 p e1 s2 he1 hf1 (by rw [hin1]; exact hb) hp1 hpf
            exact ⟨by rw [hrec.1, hin1], hrec.2.1, hrec.2.2.1, hrec.2.2.2⟩
        · rw [if_neg h1] at h
          by_cases h2 : tok.id = expression_lexer.LEFT
          · rw [if_pos h2] at h
            obtain ⟨hin1, he1, hf1, hp1⟩ := step_B hg hf hb hp hnt
              (Or.inl (by rw [h2]; decide))
            cases hpe : pexp n s1 with
            | error e2 => rw [hpe] at h; cases h
            | ok es =>
              obtain ⟨e1, s2⟩ := es
              rw [hpe] at h
              simp only at h
              obtain ⟨hin2, he2, hf2, hp2⟩ :=
                ihe s1 p e1 s2 he1 hf1 (by rw [hin1]; exact hb) hp1 hpe
              cases hnt2 : next_token s2 with
              | error e3 => rw [hnt2] at h; cases h
              | ok rs =>
                obtain ⟨r, s3⟩ := rs
                rw [hnt2] at h
                simp only at h
                by_cases h3 : r.id = expression_lexer.RIGHT
                · rw [if_pos h3] at h
                  simp only [Except.ok.injEq, Prod.mk.injEq] at h
                  obtain ⟨-, rfl⟩ := h
                  have hb2 : bang_in_at s2.input p := by rw [hin2, hin1]; exact hb
                  obtain ⟨hin3, he3, hf3, hp3⟩ := step_B he2 hf2 hb2 hp2 hnt2
                    (Or.inl (by rw [h3]; decide))
                  exact ⟨by rw [hin3, hin2, hin1], he3, hf3, hp3⟩
                · rw [if_neg h3] at h; cases h
          · rw [if_neg h2] at h
            by_cases h3 : tok.id = expression_lexer.OPERAND
            · rw [if_pos h3] at h
              obtain ⟨hin1, he1, hf1, hp1⟩ := step_B hg hf hb hp hnt
                (Or.inl (by rw [h3]; decide))
              cases hnt2 : next_token s1 with
              | error e2 => rw [hnt2] at h; cases h
              | ok os =>
                obtain ⟨opt, s2⟩ := os
                rw [hnt2] at h
                simp only at h
                by_cases h4 : opt.id = expression_lexer.OPERATOR
                · rw [if_pos h4] at h
                  have hb1 : bang_in_at s1.input p := by rw [hin1]; exact hb
                  by_cases hval : opt.value = "!in"
                  · rw [hval] at h
                    rw [show str_to_op "!in" = .error (.ex "Invalid operator") from by decide] at h
                    cases h
                  · obtain ⟨hin2, he2, hf2, hp2⟩ := step_B he1 hf1 hb1 hp1 hnt2 (Or.inr hval)
                    cases hop : str_to_op opt.value with
                    | error e2 => rw [hop] at h; cases h
                    | ok op =>
                      rw [hop] at h
                      simp only at h
                      cases hnt3 : next_token s2 with
                      | error e3 => rw [hnt3] at h; cases h
                      | ok o2s =>
                        obtain ⟨operand2, s3⟩ := o2s
                        rw [hnt3] at h
                        simp only at h
                        by_cases h5 : operand2.id = expression_lexer.OPERAND
                        · rw [if_pos h5] at h
                          simp only [Except.ok.injEq, Prod.mk.injEq] at h
                          obtain ⟨-, rfl⟩ := h
                          have hb2 : bang_in_at s2.input p := by rw [hin2]; exact hb1
                          obtain ⟨hin3, he3, hf3, hp3⟩ := step_B he2 hf2 hb2 hp2 hnt3
                            (Or.inl (by rw [h5]; decide))
                          exact ⟨by rw [hin3, hin2, hin1], he3, hf3, hp3⟩
                        · rw [if_neg h5] at h; cases h
                · rw [if_neg h4] at h; cases h
            · rw [if_neg h3] at h; cases h
    · intro s p e s' hg hf hb hp h
      rw [pterm] at h
      cases hpf : pfactor n s with
      | error e2 => rw [hpf] at h; cases h
      | ok fs =>
        obtain ⟨f, s1⟩ := fs
        rw [hpf] at h
        simp only at h
        obtain ⟨hin1, he1, hf1, hp1⟩ := ihf s p f s1 hg hf hb hp hpf
        have hb1 : bang_in_at s1.input p := by rw [hin1]; exact hb
        cases hpk : peek_token s1 with
        | error e2 => rw [hpk] at h; cases h
        | ok ks =>
          obtain ⟨tk, spk⟩ := ks
          rw [hpk] at h
          simp only at h
          obtain ⟨hspk, hqle, s1', hnt1, hnt1', hno⟩ := peek_B he1 hf1 hb1 hp1 hpk
          by_cases h1 : tk.id = expression_lexer.AND
          · rw [if_pos h1] at h
            cases hnt2 : next_token spk with
            | error e2 => rw [hnt2] at h; cases h
            | ok ns =>
              obtain ⟨u, s2⟩ := ns
              rw [hnt2] at h
              simp only at h
              rw [hnt1'] at hnt2
              rw [Except.ok.injEq, Prod.mk.injEq] at hnt2
              obtain ⟨rfl, rfl⟩ := hnt2
              obtain ⟨hin1', he1', hf1', hp1'⟩ := nt_out_B hno hb1 hqle
                (Or.inl (by rw [h1]; decide))
              cases hpt : pterm n s1' with
              | error e2 => rw [hpt] at h; cases h
              | ok ts2 =>
                obtain ⟨t2, s3⟩ := ts2
                rw [hpt] at h
                simp only [Except.ok.injEq, Prod.mk.injEq] at h
                obtain ⟨-, rfl⟩ := h
                have hbx : bang_in_at s1'.input p := by rw [hin1']; exact hb1
                have hrec := iht s1' p t2 s3 he1' hf1' hbx hp1' hpt
                exact ⟨by rw [hrec.1, hin1', hin1], hrec.2.1, hrec.2.2.1, hrec.2.2.2⟩
          · rw [if_neg h1] at h
            simp only [Except.ok.injEq, Prod.mk.injEq] at h
            obtain ⟨-, rfl⟩ := h
            refine ⟨by rw [hspk]; exact hin1, by rw [hspk], by rw [hspk], ?_⟩
            rw [hspk]
            exact hqle
    · intro s p e s' hg hf hb hp h
      rw [pexp] at h
      cases hpt : pterm n s with
      | error e2 => rw [hpt] at h; cases h
      | ok ts =>
        obtain ⟨f, s1⟩ := ts
        rw [hpt] at h
        simp only at h
        obtain ⟨hin1, he1, hf1, hp1⟩ := iht s p f s1 hg hf hb hp hpt
        have hb1 : bang_in_at s1.input p := by rw [hin1]; exact hb
        cases hpk : peek_token s1 with
        | error e2 => rw [hpk] at h; cases h
        | ok ks =>
          obtain ⟨tk, spk⟩ := ks
          rw [hpk] at h
          simp only at h
          obtain ⟨hspk, hqle, s1', hnt1, hnt1', hno⟩ := peek_B he1 hf1 hb1 hp1 hpk
          by_cases h1 : tk.id = expression_lexer.OR
          · rw [if_pos h1] at h
            cases hnt2 : next_token spk with
            | error e2 => rw [hnt2] at h; cases h
            | ok ns =>
              obtain ⟨u, s2⟩ := ns
              rw [hnt2] at h
              simp only at h
              rw [hnt1'] at hnt2
              rw [Except.ok.injEq, Prod.mk.injEq] at hnt2
              obtain ⟨rfl, rfl⟩ := hnt2
              obtain ⟨hin1', he1', hf1', hp1'⟩ := nt_out_B hno hb1 hqle
                (Or.inl (by rw [h1]; decide))
              cases hpe : pexp n s1' with
              | error e2 => rw [hpe] at h; cases h
              | ok es2 =>
                obtain ⟨e2, s3⟩ := es2
                rw [hpe] at h
                simp only [Except.ok.injEq, Prod.mk.injEq] at h
                obtain ⟨-, rfl⟩ := h
                have hbx : bang_in_at s1'.input p := by rw [hin1']; exact hb1
                have hrec := ihe s1' p e2 s3 he1' hf1' hbx hp1' hpe
                exact ⟨by rw [hrec.1, hin1', hin1], hrec.2.1, hrec.2.2.1, hrec.2.2.2⟩
          · rw [if_neg h1] at h
            simp only [Except.ok.injEq, Prod.mk.injEq] at h
            obtain ⟨-, rfl⟩ := h
            refine ⟨by rw [hspk]; exact hin1, by rw [hspk], by rw [hspk], ?_⟩
            rw [hspk]
            exact hqle

/-- C7.  Every predicate string containing a `!` immediately followed by
`in` and a word boundary (the whitespace condition under which the lexer
emits the reserved `!in` OPERATOR token) fails to parse: the token is
explicitly rejected wherever it can occur, never silently accepted. -/
theorem c7_bang_in_rejected (str : String) (p : Nat) (hb : bang_in_at str.data p)
    (e : expression_t) : parse str ≠ .ok e := by
  intro h
  unfold parse at h
  cases hpe : pexp (3 * str.length + 3) (init_state str) with
  | error e2 => rw [hpe] at h; cases h
  | ok es =>
    obtain ⟨e1, s1⟩ := es
    rw [hpe] at h
    simp only at h
    obtain ⟨hin1, he1, hf1, hp1⟩ := (parser_bang _).2.2 (init_state str) p e1 s1
      rfl rfl hb (Nat.zero_le p) hpe
    cases hnt : next_token s1 with
    | error e2 => rw [hnt] at h; cases h
    | ok ts =>
      obtain ⟨tok, s2⟩ := ts
      rw [hnt] at h
      simp only at h
      have hb1 : bang_in_at s1.input p := by rw [hin1]; exact hb
      obtain ⟨⟨-, hidne, -⟩, -⟩ := step_invariant he1 hf1 hb1 hp1 hnt
      rw [if_neg hidne] at h
      cases h

theorem c7_witness : parse "a !in b" ≠ .ok (.predicate "a" relop_id.EQ "b") :=
  c7_bang_in_rejected "a !in b" 2
    ⟨by decide, by decide, by decide, ⟨' ', by decide, by decide⟩⟩
    (.predicate "a" relop_id.EQ "b")

/- ===================== Concrete parser theorems ===================== -/

/-- C5.  The boolean connectives parse right-associatively:
`a==1 || b==2 || c==3` yields `OR(P(a==1), OR(P(b==2), P(c==3)))`, and a
`&&` chain analogously yields `AND(x, AND(y, z))`, not the left-associated
shape. -/
theorem c5_right_assoc :
    parse "a==1 || b==2 || c==3"
        = .ok (.disjunction (.predicate "a" .EQ "1")
            (.disjunction (.predicate "b" .EQ "2") (.predicate "c" .EQ "3")))
    ∧ parse "a==1 && b==2 && c==3"
        = .ok (.conjunction (.predicate "a" .EQ "1")
            (.conjunction (.predicate "b" .EQ "2") (.predicate "c" .EQ "3")))
    ∧ parse "a==1 || b==2 || c==3"
        ≠ .ok (.disjunction
            (.disjunction (.predicate "a" .EQ "1") (.predicate "b" .EQ "2"))
            (.predicate "c" .EQ "3")) := by
  refine ⟨by decide, by decide, by decide⟩

/-- C6.  Negating a predicate complements its operator under the involution
EQ and NEQ, LT and GE, GT and LE; negating the parse of `x<=5` produces
operator `>` with the same attribute and literal.  In the modelled
relational-operator table the six variants are exhaustive, so the `negate`
error branch for other operators is unreachable. -/
theorem c6_negate_involution :
    negate_op .EQ = .NEQ ∧ negate_op .NEQ = .EQ
    ∧ negate_op .LT = .GE ∧ negate_op .GE = .LT
    ∧ negate_op .GT = .LE ∧ negate_op .LE = .GT
    ∧ parse "x<=5" = .ok (.predicate "x" .LE "5")
    ∧ negate_exp (.predicate "x" .LE "5") = .predicate "x" .GT "5" := by
  refine ⟨rfl, rfl, rfl, rfl, rfl, rfl, by decide, rfl⟩

/-- C8 evaluation.  The premature-end check is defeated for a trailing `!`:
`unget` after a failed `get` at end of input is a no-op, so the `!` consumed
by the parser's lookahead is never restored and the final `next_token`
reports END.  `parse "a==1!"` therefore returns the partial AST `P(a==1)`
even though the input continues with the non-END token `!` after the
complete expr (second conjunct: lexing the remaining input from the
position after `a==1` yields a NOT token, not END). -/
theorem c8_trailing_not_rejected :
    parse "a==1!" = .ok (.predicate "a" .EQ "1")
    ∧ next_token ⟨"a==1!".data, 4, false, false⟩
        = .ok (⟨expression_lexer.NOT, "!"⟩, ⟨"a==1!".data, 5, false, true⟩) := by
  refine ⟨by decide, by decide⟩

/-- C10 counterexample.  On the lexer state holding the single remaining
character `<`, `peek_token` returns an OPERATOR token `<` but leaves the
stream in the failed state (the token's lexing read past end of input, so
`put_back`'s ungets are no-ops), and the immediately following `next_token`
returns END: the peeked token and the next token differ. -/
theorem c10_put_back_fails :
    peek_token (init_state "<")
        = .ok (⟨expression_lexer.OPERATOR, "<"⟩, ⟨"<".data, 1, false, true⟩)
    ∧ next_token ⟨"<".data, 1, false, true⟩
        = .ok (⟨expression_lexer.END, ""⟩, ⟨"<".data, 1, false, true⟩)
    ∧ expression_lexer.OPERATOR ≠ expression_lexer.END := by
  refine ⟨by decide, by decide, by decide⟩

/-- C10 amended.  Peeking agrees with the following read whenever lexing the
token does not read past the end of the input (equivalently, leaves the
stream unfailed) — put_back then restores exactly the consumed characters —
and also for the END token at exhausted input.  (The unrestricted claim is
false: see the counterexample on the remaining input `<`.) -/
theorem c10_peek_then_next (s : lex_state) (t : expression_lex_token) (s' : lex_state)
    (hok : next_token s = .ok (t, s'))
    (hcond : s'.failb = false ∨ t.id = expression_lexer.END) :
    peek_token s = .ok (t, put_back s' t)
    ∧ next_token (put_back s' t) = .ok (t, s') := by
  refine ⟨by unfold peek_token; rw [hok], ?_⟩
  rcases hcond with hf | hid
  · obtain ⟨hg, hgf, hq⟩ := next_token_pre s t s' hok hf
    exact (next_token_spec s t s' hg hgf hq hok (Or.inl hf)).2
  · exact (end_token_next s t s' hok hid).2

theorem c10_witness :
    peek_token (init_state "a")
      = .ok (⟨expression_lexer.OPERAND, "a"⟩,
          put_back ⟨"a".data, 1, true, false⟩ ⟨expression_lexer.OPERAND, "a"⟩)
    ∧ next_token (put_back ⟨"a".data, 1, true, false⟩ ⟨expression_lexer.OPERAND, "a"⟩)
      = .ok (⟨expression_lexer.OPERAND, "a"⟩, ⟨"a".data, 1, true, false⟩) :=
  c10_peek_then_next (init_state "a") ⟨expression_lexer.OPERAND, "a"⟩
    ⟨"a".data, 1, true, false⟩ (by decide) (Or.inl (by decide))

/- ===================== C9: metadata accessors ===================== -/

/-- C9 evaluation.  The metadata accessors do not return the configured
metadata: `index_id` and `index_bucket_size` are declared with return type
`bool`, so two schemas whose only column is configured with bucket sizes 2
and 3 (and ids 2 and 3) are indistinguishable through the accessors — both
report `true` — even though the configured values differ and `get_key`
quantizes values differently for the two columns. -/
theorem c9_metadata_truncated :
    schema_snapshot.index_bucket_size snapA 0 = schema_snapshot.index_bucket_size snapB 0
    ∧ schema_snapshot.index_id snapA 0 = schema_snapshot.index_id snapB 0
    ∧ colA.index_bucket_size ≠ colB.index_bucket_size
    ∧ colA.index_id ≠ colB.index_id
    ∧ schema_snapshot.get_key snapA (fun _ => 5) 0
        ≠ schema_snapshot.get_key snapB (fun _ => 5) 0 := by
  refine ⟨rfl, rfl, by decide, by decide, by decide⟩

end Confluo
